import Mathlib

/-!
Shallow embedding of the Schwab contact-matching scripts
(`scripts/match_discovery.py` and `scripts/match_raw_data.py`).

Strings are modelled as `List Char` (ASCII view of Python `str`).  Pandas
cells are modelled by `Cell` (missing value / string / integer); dataframes by
`Table` (a list of column names plus one association list per row).  The
external similarity scorer (`fuzz.token_set_ratio` from fuzzywuzzy/rapidfuzz,
a third-party library, not repository code) is a parameter of every matcher;
`specTokenSetScore` is an executable stand-in used to run concrete instances.
-/

/-- Python `\s` (ASCII range): the six whitespace characters. -/
def isSpaceCh (c : Char) : Bool :=
  c = ' ' || c = '\t' || c = '\n' || c = '\r' || c = '\x0b' || c = '\x0c'

/-- Python `\w` (ASCII range): letters, digits, underscore. -/
def isWordCh (c : Char) : Bool :=
  c.isAlphanum || c = '_'

/-- Python `str.lower` restricted to ASCII letters. -/
def lowerCh (c : Char) : Char :=
  if 65 ≤ c.toNat ∧ c.toNat ≤ 90 then Char.ofNat (c.toNat + 32) else c

/-- Python `str.strip`: drop leading and trailing whitespace. -/
def trimList (s : List Char) : List Char :=
  ((s.dropWhile isSpaceCh).reverse.dropWhile isSpaceCh).reverse

/-- Python `re.sub(r"\s+", ' ', s)`: collapse every whitespace run to a single
space.  The flag records whether the previous character was whitespace. -/
def squeeze (prevSpace : Bool) : List Char → List Char
  | [] => []
  | c :: rest =>
    if isSpaceCh c then
      if prevSpace then squeeze true rest else ' ' :: squeeze true rest
    else c :: squeeze false rest

/-- The suffix alternatives of the regex on line 41 of `match_discovery.py`,
in the order they appear in the pattern. -/
def suffixTokens : List String :=
  ["inc", "llc", "ltd", "corp", "co", "group", "pllc", "pl", "pc", "pa",
   "pcs", "service", "investment", "management"]

/-- Word-boundary test for the position just before a trailing token: the
part `p` of the string before the token must be empty or end in a non-word
character. -/
def boundaryBefore (p : List Char) : Bool :=
  match p.getLast? with
  | none => true
  | some c => !isWordCh c

/-- `tok` matches `re`-style at the very end of `s` (token chars present as a
suffix, preceded by a word boundary). -/
def trailingTokenMatch (tok : String) (s : List Char) : Bool :=
  tok.data.isSuffixOf s && boundaryBefore (s.take (s.length - tok.data.length))

/-- `re.sub(r"\b(?:inc|llc|...)\b\.?$", '', s)`: if the string ends in one of
the configured tokens as a whole word (optionally followed by a single dot),
remove that trailing token (and the dot); otherwise return the string
unchanged.  Distinct tokens cannot both match (one would have to be a proper
suffix of the other, which the word boundary rules out), so trying the
alternatives in pattern order is faithful. -/
def stripPre (s : List Char) : List Char :=
  if s.getLast? = some '.' then s.dropLast else s

def stripTrailingSuffix (s : List Char) : List Char :=
  match suffixTokens.find? (fun tok => trailingTokenMatch tok (stripPre s)) with
  | some tok => (stripPre s).take ((stripPre s).length - tok.data.length)
  | none => s

/-- `normalize_company_name` (match_discovery.py, lines 35-43): lowercase and
strip, replace non-word non-space characters by spaces, strip one configured
trailing suffix token, collapse whitespace. -/
def normalize_company_name (s : List Char) : List Char :=
  if s = [] then []
  else
    let s1 := (trimList s).map lowerCh
    let s2 := s1.map (fun c => if isWordCh c || isSpaceCh c then c else ' ')
    let s3 := trimList (stripTrailingSuffix s2)
    trimList (squeeze false s3)

example : normalize_company_name "Acme, Inc.".data = "acme inc".data := by decide
example : normalize_company_name "Acme Inc".data = "acme".data := by decide
example : normalize_company_name "Acme  Investment".data = "acme".data := by decide
example : normalize_company_name "service investment".data = "service".data := by decide
example : normalize_company_name "service".data = [] := by decide
example : normalize_company_name "incline village".data = "incline village".data := by decide

/-! ## Data model: pandas cells, rows, tables -/

/-- A pandas cell: missing value (NaN), a string, or an integer. -/
inductive Cell where
  | na : Cell
  | str : String → Cell
  | num : Int → Cell
deriving DecidableEq

/-- A dataframe row: an association list from column name to cell. -/
def Row := List (String × Cell)

instance : DecidableEq Row := by unfold Row; infer_instance

/-- A dataframe: column names plus rows (each row is assumed to carry every
column of the table; pandas raises on access to an absent column). -/
structure Table where
  cols : List String
  rows : List Row

/-- `df[col]` for one row: the cell under the column, `NaN` when absent. -/
def dfGet (r : Row) (c : String) : Cell :=
  match List.lookup c r with
  | some v => v
  | none => Cell.na

/-- Python `row.get(col, default)` on a row dictionary. -/
def rowGetD (r : Row) (c : String) (d : Cell) : Cell :=
  match List.lookup c r with
  | some v => v
  | none => d

/-- `pd.notna`. -/
def Cell.isNotna : Cell → Bool
  | Cell.na => false
  | _ => true

/-- `.fillna(d)`. -/
def fillna (d : String) : Cell → Cell
  | Cell.na => Cell.str d
  | c => c

/-- `str(cell)` / `.astype(str)`: note `str(nan) = "nan"`. -/
def cellStr : Cell → List Char
  | Cell.na => "nan".data
  | Cell.str s => s.data
  | Cell.num n => (toString n).data

/-- Python truthiness test (`if not value`): empty string, `0` and `None` are
falsy; NaN is truthy. -/
def Cell.isFalsy : Cell → Bool
  | Cell.na => false
  | Cell.str s => s = ""
  | Cell.num n => n = 0

/-- `_col_series(df, col)` (match_discovery.py, lines 194-195): the column if
present, else a constant empty-string column. -/
def colSeries (cols : List String) (r : Row) (c : String) : Cell :=
  if c ∈ cols then dfGet r c else Cell.str ""

/-- `.fillna('').astype(str).str.strip().str.lower()`: the e-mail
normalization used for `_email_norm` on both tables. -/
def normEmail (c : Cell) : List Char :=
  (trimList (cellStr (fillna "" c))).map lowerCh

/-- `s.split('@')[-1]`: the part after the last `'@'`, the whole string when
there is no `'@'`. -/
def afterLastAt (s : List Char) : List Char :=
  (s.reverse.takeWhile (fun c => c ≠ '@')).reverse

/-- `normalize_company_name` applied to a raw cell, mirroring the Python
truthiness guard `if not name` and the `str(name)` coercion. -/
def normalizeCompanyCell (c : Cell) : List Char :=
  if c.isFalsy then [] else normalize_company_name (cellStr c)

/-! ## The external similarity scorer

`fuzz.token_set_ratio` comes from fuzzywuzzy (match_discovery.py) or
rapidfuzz-with-fuzzywuzzy-fallback (match_raw_data.py); it is third-party
library code, so every matcher below takes the scorer as a parameter
`ratio : List Char → List Char → Nat`.  `specTokenSetScore` is an executable
token-set similarity with the properties the spec ascribes to the scorer
(integer result in [0,100], 100 exactly on token-set equality); it is used to
instantiate concrete runs. -/

/-- Python `str.split()` with no separator: whitespace-delimited words.  The
accumulator holds the current word reversed. -/
def wordsAux (cur : List Char) : List Char → List (List Char)
  | [] => if cur = [] then [] else [cur.reverse]
  | c :: rest =>
    if isSpaceCh c then
      if cur = [] then wordsAux [] rest else cur.reverse :: wordsAux [] rest
    else wordsAux (c :: cur) rest

def wordsOf (s : List Char) : List (List Char) := wordsAux [] s

/-- Executable token-set similarity: 100 on token-set equality, otherwise a
Dice-style overlap of the distinct token sets (always < 100). -/
def specTokenSetScore (a b : List Char) : Nat :=
  let ta := (wordsOf a).eraseDups
  let tb := (wordsOf b).eraseDups
  if ta.all (fun t => tb.contains t) && tb.all (fun t => ta.contains t) then 100
  else (200 * (ta.filter (fun t => tb.contains t)).length) / (ta.length + tb.length)

example : specTokenSetScore "john  smith | acme".data "john smith | acme".data = 100 := by decide
example : specTokenSetScore "john smith | acme".data "john smith | bcme".data = 75 := by decide

/-! ## `match_unmatched_by_email_then_fuzzy` (match_discovery.py, lines 186-275) -/

/-- Column-name parameters of `match_unmatched_by_email_then_fuzzy` (its
keyword arguments). -/
structure FuzzyCols where
  advEmailCol : String
  swEmailCol : String
  advFirstCol : String
  advLastCol : String
  advCompanyCol : String
  swFirstCol : String
  swLastCol : String
  swCompanyCol : String
deriving DecidableEq

/-- The default column names of the Python signature. -/
def defaultFuzzyCols : FuzzyCols :=
  ⟨"Email_", "Email_Address", "First_Name_", "Last_Name_", "Company_Name",
   "First_Name_", "Last_Name_", "Business_Name"⟩

/-- One internal (Advyzon) record during a run: its row, its precomputed
`_email_norm`, and its `_used` consumption flag. -/
structure AdvSt where
  row : Row
  emailNorm : List Char
  used : Bool
deriving DecidableEq

/-- Kind tag of an output record (`Matched_or_not`). -/
inductive FKind where
  | email_matched
  | fuzzy_matched
  | unmatched
deriving DecidableEq

/-- One output record of the email/fuzzy matcher: the consumed internal
record (index into the internal table and its row; `none` twice when
unmatched, i.e. every `adv_*` field null), the external row with its index,
the match kind and the score. -/
structure FOut where
  advIdx : Option Nat
  advRow : Option Row
  swIndex : Nat
  swRow : Row
  kind : FKind
  score : Nat
deriving DecidableEq

/-- `adv[(adv['_email_norm'] == e) & (adv['_used'] == False)].index[0]`: the
first not-yet-consumed internal record whose normalized email is `e`. -/
def findEmailIdx (e : List Char) : List AdvSt → Option Nat
  | [] => none
  | a :: rest =>
    if a.used = false ∧ a.emailNorm = e then some 0
    else (findEmailIdx e rest).map (· + 1)

/-- Set the `_used` flag of record `i`. -/
def markUsed : List AdvSt → Nat → List AdvSt
  | [], _ => []
  | a :: rest, 0 => ⟨a.row, a.emailNorm, true⟩ :: rest
  | a :: rest, n + 1 => a :: markUsed rest n

/-- Positions paired with elements, starting at `n` (`DataFrame.iterrows`
with a range index). -/
def enumFromN (n : Nat) : List AdvSt → List (Nat × AdvSt)
  | [] => []
  | a :: rest => (n, a) :: enumFromN (n + 1) rest

/-- `str(sw_row.get(col, '')).strip().lower()`: name-part extraction. -/
def namePart (r : Row) (c : String) : List Char :=
  (trimList (cellStr (rowGetD r c (Cell.str "")))).map lowerCh

/-- `f"{first} {last} {company}".strip()`: the fuzzy identity key of a
query row (lines 216-219). -/
def swKeyOf (P : FuzzyCols) (r : Row) : List Char :=
  trimList (namePart r P.swFirstCol ++ [' '] ++ namePart r P.swLastCol ++ [' ']
    ++ normalizeCompanyCell (rowGetD r P.swCompanyCol (Cell.str "")))

/-- The candidate identity key of an internal record (lines 245-248). -/
def advKeyOf (P : FuzzyCols) (a : AdvSt) : List Char :=
  trimList (namePart a.row P.advFirstCol ++ [' '] ++ namePart a.row P.advLastCol ++ [' ']
    ++ normalizeCompanyCell (rowGetD a.row P.advCompanyCol (Cell.str "")))

/-- Query email domain (line 220): the lowercased part after the last `'@'`
of the raw email string, empty when the string has no `'@'`. -/
def swDomainOf (P : FuzzyCols) (r : Row) : List Char :=
  let s := cellStr (rowGetD r P.swEmailCol (Cell.str ""))
  if '@' ∈ s then (afterLastAt s).map lowerCh else []

/-- Candidate email domain (line 230): `fillna('').astype(str)` then the part
after the last `'@'` (no `'@'` check on this side), lowercased. -/
def advDomainOf (P : FuzzyCols) (a : AdvSt) : List Char :=
  (afterLastAt (cellStr (fillna "" (dfGet a.row P.advEmailCol)))).map lowerCh

/-- Candidate initials (lines 238-239): first letters of first and last name;
`none` (pandas NaN) when either name is empty. -/
def advInitialsOf (P : FuzzyCols) (a : AdvSt) : Option (List Char) :=
  match (cellStr (fillna "" (dfGet a.row P.advFirstCol))).head?,
        (cellStr (fillna "" (dfGet a.row P.advLastCol))).head? with
  | some x, some y => some [lowerCh x, lowerCh y]
  | _, _ => none

/-- Query initials (line 237): `(sw_first[0] + sw_last[0]).lower()`; only used
under the guard that both names are non-empty. -/
def swInitials (swFirst swLast : List Char) : List Char :=
  [lowerCh (swFirst.headD ' '), lowerCh (swLast.headD ' ')]

/-- Domain blocking (lines 227-233): restrict to candidates sharing the query
email domain, unless the query has no domain or the restriction is empty. -/
def blockDomain (P : FuzzyCols) (swDomain : List Char) (unused : List (Nat × AdvSt)) :
    List (Nat × AdvSt) :=
  if swDomain = [] then unused
  else
    let dm := unused.filter (fun x => advDomainOf P x.2 = swDomain)
    if dm = [] then unused else dm

/-- Full blocking (lines 225-242): domain restriction, then — when the pool
is still larger than 100 and both query names are non-empty — an initials
restriction on the unrestricted pool, falling back to the unrestricted pool
when it comes out empty. -/
def blockCandidates (P : FuzzyCols) (swDomain swFirst swLast : List Char)
    (unused : List (Nat × AdvSt)) : List (Nat × AdvSt) :=
  let c1 := blockDomain P swDomain unused
  if 100 < c1.length ∧ swFirst ≠ [] ∧ swLast ≠ [] then
    let im := unused.filter (fun x => advInitialsOf P x.2 = some (swInitials swFirst swLast))
    if im = [] then unused else im
  else c1

/-- The scoring loop (lines 244-252): best score so far (starting at 0) and
the index of the first candidate that strictly exceeded it. -/
def fuzzyBestAux (ratio : List Char → List Char → Nat) (P : FuzzyCols) (q : List Char)
    (acc : Nat × Option Nat) : List (Nat × AdvSt) → Nat × Option Nat
  | [] => acc
  | x :: rest =>
    let s := ratio q (advKeyOf P x.2)
    fuzzyBestAux ratio P q (if s > acc.1 then (s, some x.1) else acc) rest

/-- Threshold decision and output assembly of the fuzzy stage
(lines 253-270). -/
def fuzzySelect (ratio : List Char → List Char → Nat) (P : FuzzyCols) (thr : Nat)
    (adv : List AdvSt) (cands : List (Nat × AdvSt)) (swIdx : Nat) (swRow : Row)
    (swKey : List Char) : List AdvSt × FOut :=
  let best := fuzzyBestAux ratio P swKey (0, none) cands
  match best.2 with
  | some i =>
    if thr ≤ best.1 then
      (markUsed adv i,
       ⟨some i, (adv.get? i).map AdvSt.row, swIdx, swRow, FKind.fuzzy_matched, best.1⟩)
    else (adv, ⟨none, none, swIdx, swRow, FKind.unmatched, 0⟩)
  | none => (adv, ⟨none, none, swIdx, swRow, FKind.unmatched, 0⟩)

/-- The fuzzy stage of one query record (lines 216-270): build key, domain
and blocking from the not-yet-consumed pool, then score and select. -/
def stepFuzzy (ratio : List Char → List Char → Nat) (P : FuzzyCols) (thr : Nat)
    (adv : List AdvSt) (swIdx : Nat) (swRow : Row) : List AdvSt × FOut :=
  let swFirst := namePart swRow P.swFirstCol
  let swLast := namePart swRow P.swLastCol
  let unused := (enumFromN 0 adv).filter (fun x => x.2.used = false)
  let cands := blockCandidates P (swDomainOf P swRow) swFirst swLast unused
  fuzzySelect ratio P thr adv cands swIdx swRow (swKeyOf P swRow)

/-- One iteration of the per-record loop (lines 200-270): exact email match
first, fuzzy fallback otherwise. -/
def step (ratio : List Char → List Char → Nat) (P : FuzzyCols) (thr : Nat)
    (swCols : List String) (adv : List AdvSt) (swIdx : Nat) (swRow : Row) :
    List AdvSt × FOut :=
  let swEmail := normEmail (colSeries swCols swRow P.swEmailCol)
  if swEmail = [] then stepFuzzy ratio P thr adv swIdx swRow
  else
    match findEmailIdx swEmail adv with
    | some i =>
      (markUsed adv i,
       ⟨some i, (adv.get? i).map AdvSt.row, swIdx, swRow, FKind.email_matched, 100⟩)
    | none => stepFuzzy ratio P thr adv swIdx swRow

/-- The whole loop, threading the consumption state and emitting one output
record per query row. -/
def runFuzzyAux (ratio : List Char → List Char → Nat) (P : FuzzyCols) (thr : Nat)
    (swCols : List String) (adv : List AdvSt) : List (Nat × Row) → List FOut
  | [] => []
  | (i, r) :: rest =>
    let out := step ratio P thr swCols adv i r
    out.2 :: runFuzzyAux ratio P thr swCols out.1 rest

/-- Pair rows with their positional index. -/
def enumRows (n : Nat) : List Row → List (Nat × Row)
  | [] => []
  | r :: rest => (n, r) :: enumRows (n + 1) rest

/-- `match_unmatched_by_email_then_fuzzy`: precompute `_email_norm` and
`_used` on the internal table, then run the loop over the external table.
(The final `Email_Domain` column re-attachment of lines 272-273 only adds an
output column and is not modelled.) -/
def match_unmatched_by_email_then_fuzzy (ratio : List Char → List Char → Nat)
    (P : FuzzyCols) (thr : Nat) (advTab swTab : Table) : List FOut :=
  let adv := advTab.rows.map
    (fun r => AdvSt.mk r (normEmail (colSeries advTab.cols r P.advEmailCol)) false)
  runFuzzyAux ratio P thr swTab.cols adv (enumRows 0 swTab.rows)

/-! ## `match_contacts_by_crd_and_email` (match_discovery.py, lines 82-183) -/

/-- Output kind of the CRD merge. -/
inductive CrdKind where
  | matched_crd
  | unmatched
deriving DecidableEq

/-- One output row of the CRD merge: the original external row plus the four
match columns (`Matched_or_not`, `Match_Score`, `adv_Email_`,
`adv_Record_ID`).  The code additionally inserts an empty `Email_Address`
column into the external table when it is missing; that only adds an output
column and is not modelled. -/
structure CrdOut where
  row : Row
  kind : CrdKind
  score : Nat
  advEmail : Option Cell
  advId : Option (List Char)
deriving DecidableEq

/-- Result of the CRD merge, including whether the no-CRD-column warning was
logged (the function never raises: it always returns a frame). -/
structure CrdResult where
  warnedNoCrd : Bool
  rows : List CrdOut

/-- First candidate column name present in the table (lines 97-107). -/
def firstPresent (cols : List String) (cands : List String) : Option String :=
  cands.find? (fun c => c ∈ cols)

/-- The CRD column-name variants probed in the internal table (line 104). -/
def crdColCandidates : List String :=
  ["CRD", "Rep_CRD", "RepCRD", "MatchedRepCRD", "Matched_CRD"]

/-- The record-id column-name variants probed (line 98), after the hint. -/
def idColCandidates (hint : String) : List String :=
  [hint, "Record_ID", "RecordID", "Record Id", "ID"]

/-- The email column-name variants probed (line 111). -/
def emailColCandidates : List String :=
  ["Email_", "Email", "Email Address", "Email_Address", "EmailAddress"]

/-- `str(int(rec_id)) if isinstance(rec_id, (int, float)) else str(rec_id)`
(line 172): decimal rendering of the record id, avoiding scientific
notation. -/
def cellIdStr : Cell → List Char
  | Cell.num n => (toString n).data
  | c => cellStr c

/-- Representative internal row for one CRD key (lines 138-150): among the
internal rows carrying this CRD, prefer the first with a non-empty normalized
email when there are several, else the first. -/
def bestAdvForCrd (advRows : List Row) (crdCol advEmailCol : String) (crd : Cell) :
    Option Row :=
  match advRows.filter (fun r => dfGet r crdCol = crd) with
  | [] => none
  | [r] => some r
  | g₁ :: g₂ :: g₃ =>
    match (g₁ :: g₂ :: g₃).find? (fun r => normEmail (dfGet r advEmailCol) ≠ []) with
    | some r => some r
    | none => some g₁

/-- The four match columns for one external row (lines 160-172): matched only
when the external table has a `Matched_CRD` column, the row's value is
non-null, and some internal row carries that CRD. -/
def crdRowResult (advTab : Table) (crdCol advEmailCol : String)
    (advIdCol : Option String) (hasMatchedCrd : Bool) (r : Row) : CrdOut :=
  if hasMatchedCrd then
    let crd := dfGet r "Matched_CRD"
    if crd.isNotna then
      match bestAdvForCrd advTab.rows crdCol advEmailCol crd with
      | some ar =>
        ⟨r, CrdKind.matched_crd, 100, some (dfGet ar advEmailCol),
         match advIdCol with
         | some ic =>
           let rid := dfGet ar ic
           if rid.isNotna then some (cellIdStr rid) else none
         | none => none⟩
      | none => ⟨r, CrdKind.unmatched, 0, none, none⟩
    else ⟨r, CrdKind.unmatched, 0, none, none⟩
  else ⟨r, CrdKind.unmatched, 0, none, none⟩

/-- `match_contacts_by_crd_and_email`.  The `crd_col` parameter of the Python
signature is never read by the body and is omitted.  When no CRD column
variant is present in the internal table, the function logs a warning and
returns every external row unmatched (lines 117-125); otherwise it merges by
CRD with the per-key best representative.  Row count and order of the
external table are preserved in both branches. -/
def match_contacts_by_crd_and_email (advTab swTab : Table)
    (advEmailColParam advIdHint : String) : CrdResult :=
  let advIdCol := firstPresent advTab.cols (idColCandidates advIdHint)
  let advCrdCol := firstPresent advTab.cols crdColCandidates
  match advCrdCol with
  | none =>
    ⟨true, swTab.rows.map (fun r => ⟨r, CrdKind.unmatched, 0, none, none⟩)⟩
  | some crdCol =>
    let advEmailCol :=
      if advEmailColParam ∈ advTab.cols then advEmailColParam
      else (firstPresent advTab.cols emailColCandidates).getD advEmailColParam
    let hasMatchedCrd := "Matched_CRD" ∈ swTab.cols
    ⟨false, swTab.rows.map (crdRowResult advTab crdCol advEmailCol advIdCol hasMatchedCrd)⟩

/-! ## `match_by_name_and_company` (match_raw_data.py, lines 43-137) -/

/-- The suffix alternatives of `suffix_pattern` (match_raw_data.py, line 50),
in pattern order.  Unlike the match_discovery normalizer, this pattern is not
anchored at the end of the string. -/
def rawSuffixTokens : List String :=
  ["inc", "llc", "ltd", "co", "corporation", "corp", "pllc", "pc", "gmbh",
   "ag", "bv", "sa", "sarl", "sas", "pte", "pty", "limited", "investment", "group"]

/-- Does token `t` (lowercase) match case-insensitively at the head of `l`,
with a word boundary after it? -/
def tokHeadMatch (t : List Char) (l : List Char) : Bool :=
  (l.take t.length).map lowerCh = t &&
  (match l.drop t.length with
   | [] => true
   | d :: _ => !isWordCh d)

/-- At the current position (preceded by `prev`, `none` at string start), the
first pattern alternative that matches with word boundaries.  Returns the
last matched character of the original string and the token length minus one
(so the caller always advances by a positive amount). -/
def findTok (prev : Option Char) (l : List Char) : Option (Char × Nat) :=
  if (match prev with | none => true | some c => !isWordCh c) then
    rawSuffixTokens.findSome? (fun t =>
      if tokHeadMatch t.data l then
        match (l.take t.data.length).getLast? with
        | some lc => some (lc, t.data.length - 1)
        | none => none
      else none)
  else none

/-- `re.sub(suffix_pattern, "", s, flags=IGNORECASE)`: scan left to right,
removing every whole-word occurrence of a configured token.  Fuel is the
string length (each step consumes at least one character). -/
def subTokensF : Nat → Option Char → List Char → List Char
  | 0, _, l => l
  | _ + 1, _, [] => []
  | fuel + 1, prev, c :: rest =>
    match findTok prev (c :: rest) with
    | some (lc, n) => subTokensF fuel (some lc) ((c :: rest).drop (n + 1))
    | none => c :: subTokensF fuel (some c) rest

def subTokens (l : List Char) : List Char := subTokensF l.length none l

/-- The company-cleaning chain of match_raw_data.py (lines 56-68): remove the
suffix tokens anywhere, remove commas, strip, lowercase. -/
def clean_company (s : List Char) : List Char :=
  (trimList ((subTokens s).filter (fun c => c ≠ ','))).map lowerCh

example : clean_company "investment partners".data = "partners".data := by decide
example : clean_company "Acme Investment".data = "acme".data := by decide
example : clean_company "Coca Cola Co".data = "coca cola".data := by decide

/-- `pick_col` (match_raw_data.py, lines 31-40): first existing candidate
column as a cleaned string series, else a constant default column. -/
def pick_col (tab : Table) (cands : List String) (d : String) : List (List Char) :=
  match cands.find? (fun c => c ∈ tab.cols) with
  | some c => tab.rows.map (fun r => trimList (cellStr (fillna d (dfGet r c))))
  | none => tab.rows.map (fun _ => d.data)

/-- Key construction (lines 78-79): `(first + " " + last + " | " + clean)
.strip().lower()`. -/
def buildRawKey (first last clean : List Char) : List Char :=
  (trimList (first ++ [' '] ++ last ++ [' ', '|', ' '] ++ clean)).map lowerCh

/-- Length/first-character blocking (lines 100-106): applied only when there
are more than 500 candidate keys; a filter that comes out empty is discarded
in favour of the full key list. -/
def rawBlock (sk : List Char) (advKeys : List (List Char)) : List (List Char) :=
  if 500 < advKeys.length then
    let f := advKeys.filter (fun k =>
      k ≠ [] ∧ k.head? = sk.head? ∧
      (max k.length sk.length - min k.length sk.length) ≤ max 1 ((3 * sk.length) / 10))
    if f = [] then advKeys else f
  else advKeys

/-- `process.extractOne` with a scorer: best-scoring candidate, the first one
encountered winning ties; `none` only on an empty candidate list. -/
def extractBest (ratio : List Char → List Char → Nat) (q : List Char)
    (acc : List Char × Nat) : List (List Char) → List Char × Nat
  | [] => acc
  | k :: rest =>
    let s := ratio q k
    extractBest ratio q (if s > acc.2 then (k, s) else acc) rest

def extractOne (ratio : List Char → List Char → Nat) (q : List Char) :
    List (List Char) → Option (List Char × Nat)
  | [] => none
  | k :: rest => some (extractBest ratio q (k, ratio q k) rest)

/-- One output row of `match_by_name_and_company`: the original external row,
the `Matched` flag, `Match_Score`, and — when matched — the index of the
first internal row whose key equals the winning key (the source of the
`Adv_*` columns merged into the output). -/
structure ROut where
  swRow : Row
  matched : Bool
  score : Nat
  advRef : Option Nat
deriving DecidableEq

/-- Index of the first internal row with the given key
(`adv[adv["Key"] == matched_key].iloc[0]`, line 120). -/
def findKeyIdx (mk : List Char) : List (List Char) → Option Nat
  | [] => none
  | k :: rest => if k = mk then some 0 else (findKeyIdx mk rest).map (· + 1)

/-- The per-row body of the matching loop (lines 88-131).  An empty key is
emitted unmatched with score 0 before any comparison; otherwise the blocked
candidate list is scored, and the row is emitted matched exactly when the
best score reaches the threshold — but the score observed is recorded in
`Match_Score` whether or not it reaches the threshold, and no candidate is
ever consumed. -/
def rawStep (ratio : List Char → List Char → Nat) (thr : Nat)
    (advKeys : List (List Char)) (p : Row × List Char) : ROut :=
  let sk := p.2
  if sk = [] then ⟨p.1, false, 0, none⟩
  else
    match extractOne ratio sk (rawBlock sk advKeys) with
    | none => ⟨p.1, false, 0, none⟩
    | some (mk, s) =>
      if thr ≤ s then ⟨p.1, true, s, findKeyIdx mk advKeys⟩
      else ⟨p.1, false, s, none⟩

/-- The matching loop: one output row per input row, no state threaded. -/
def matchRawLoop (ratio : List Char → List Char → Nat) (thr : Nat)
    (advKeys : List (List Char)) (rows : List (Row × List Char)) : List ROut :=
  rows.map (rawStep ratio thr advKeys)

/-- Zip of rows with their keys built from picked columns. -/
def zipKeys : List Row → List (List Char) → List (Row × List Char)
  | [], _ => []
  | _, [] => []
  | r :: rs, k :: ks => (r, k) :: zipKeys rs ks

/-- Build each row's key from the picked first/last/company series. -/
def buildKeys : List (List Char) → List (List Char) → List (List Char) → List (List Char)
  | f :: fs, l :: ls, c :: cs => buildRawKey f l c :: buildKeys fs ls cs
  | _, _, _ => []

/-- The external-table key series of `match_by_name_and_company`. -/
def swKeys (swTab : Table) : List (List Char) :=
  buildKeys
    (pick_col swTab ["First_Name_", "First Name", "First name", "First"] "")
    (pick_col swTab ["Last_Name_", "Last Name", "Last name", "Last"] "")
    ((pick_col swTab ["Business_Name", "Business Name", "Company", "Company Name"] "").map clean_company)

/-- The internal-table key series of `match_by_name_and_company`. -/
def advRawKeys (advTab : Table) : List (List Char) :=
  buildKeys
    (pick_col advTab ["First Name", "First name", "First", "First_Name_"] "")
    (pick_col advTab ["Last Name", "Last name", "Last", "Last_Name_", "Last Name "] "")
    ((pick_col advTab ["Company Name", "Company", "Business_Name", "Business Name"] "").map clean_company)

/-- `match_by_name_and_company` (threshold defaults to 90 at both call
sites). -/
def match_by_name_and_company (ratio : List Char → List Char → Nat) (thr : Nat)
    (swTab advTab : Table) : List ROut :=
  matchRawLoop ratio thr (advRawKeys advTab) (zipKeys swTab.rows (swKeys swTab))

/-! ## Concrete tables used by counterexamples and witnesses -/

def c1SwTab : Table := ⟨["First_Name_", "Last_Name_", "Business_Name"],
  [[("First_Name_", Cell.str "Ann"), ("Last_Name_", Cell.str "Bell"), ("Business_Name", Cell.str "Acme")],
   [("First_Name_", Cell.str "Ann"), ("Last_Name_", Cell.str "Bell"), ("Business_Name", Cell.str "Acme")]]⟩

def c1AdvTab : Table := ⟨["First Name", "Last Name", "Company Name"],
  [[("First Name", Cell.str "Ann"), ("Last Name", Cell.str "Bell"), ("Company Name", Cell.str "Acme")]]⟩

def c3SwTab : Table := ⟨["First_Name_", "Last_Name_", "Business_Name"],
  [[("First_Name_", Cell.str "John"), ("Last_Name_", Cell.str "Smith"), ("Business_Name", Cell.str "Acme")]]⟩

def c3AdvTab : Table := ⟨["First Name", "Last Name", "Company Name"],
  [[("First Name", Cell.str "John"), ("Last Name", Cell.str "Smith"), ("Company Name", Cell.str "Bcme")]]⟩

def c8SwTab : Table := ⟨["First_Name_", "Last_Name_", "Business_Name"],
  [[("First_Name_", Cell.str "Cara"), ("Last_Name_", Cell.str "Day"), ("Business_Name", Cell.str "Oak")],
   [("First_Name_", Cell.str "Cara"), ("Last_Name_", Cell.str "Day"), ("Business_Name", Cell.str "Oak")]]⟩

def c8AdvTab : Table := ⟨["First Name", "Last Name", "Company Name"],
  [[("First Name", Cell.str "Zed"), ("Last Name", Cell.str "Qui"), ("Company Name", Cell.str "Zzz")],
   [("First Name", Cell.str "Cara"), ("Last Name", Cell.str "Day"), ("Company Name", Cell.str "Oak")]]⟩

/-! ## C1: one-to-one consumption — counterexample on `match_by_name_and_company` -/

/-- C1 counterexample: `match_by_name_and_company` performs no consumption,
so two external rows can both be matched to the same internal record (row 0
of the contacts table), violating the one-to-one claim on the fuzzy path of
`match_raw_data.py`. -/
theorem C1_counterexample :
    (match_by_name_and_company specTokenSetScore 90 c1SwTab c1AdvTab).map
      (fun r => (r.matched, r.advRef)) = [(true, some 0), (true, some 0)] := by
  decide

/-! ## C2: normalizer idempotence — counterexample -/

/-- C2 counterexample: stripping the trailing suffix token of
`"service investment"` exposes `"service"`, itself a configured suffix token,
so a second normalization strips again: the normalizer is not idempotent. -/
theorem C2_counterexample :
    normalize_company_name (normalize_company_name "service investment".data) ≠
      normalize_company_name "service investment".data := by
  decide

/-! ## C3: unmatched score — counterexample on `match_by_name_and_company` -/

/-- C3 counterexample: a query whose best fuzzy score (75) is below the
threshold (90) is emitted with `Matched = False` but `Match_Score = 75`, not
score 0 as the claim states (match_raw_data.py line 130 records the observed
score). -/
theorem C3_counterexample :
    (match_by_name_and_company specTokenSetScore 90 c3SwTab c3AdvTab).map
        (fun r => (r.matched, r.score)) = [(false, 75)] ∧
      (match_by_name_and_company specTokenSetScore 90 c3SwTab c3AdvTab).map
        ROut.score ≠ [0] := by
  decide

/-! ## C4: suffix stripped only when trailing — counterexample on
`clean_company` of match_raw_data.py -/

/-- C4 counterexample: the match_raw_data.py suffix pattern is not anchored
at the end of the string, so the configured token `"investment"` is removed
even when it occurs at the start (not as a trailing token) of
`"investment partners"`. -/
theorem C4_counterexample :
    clean_company "investment partners".data = "partners".data ∧
      "investment" ∈ rawSuffixTokens := by
  decide

/-! ## C8: consumption on fuzzy match — counterexample on
`match_by_name_and_company` -/

/-- C8 counterexample: after external row 0 is fuzzy-matched to internal
row 1 with a score at or above the threshold, that candidate is not marked
consumed: external row 1 is matched to the very same internal row again. -/
theorem C8_counterexample :
    (match_by_name_and_company specTokenSetScore 90 c8SwTab c8AdvTab).map
      (fun r => (r.matched, r.score, r.advRef)) =
      [(true, 100, some 1), (true, 100, some 1)] := by
  decide

/-! ## C10: empty identity key emitted unmatched immediately -/

/-- C10: in the `match_by_name_and_company` loop, a row whose built identity
key is empty is emitted immediately as unmatched (`Matched = False`,
`Match_Score = 0`, no internal row merged) — the emitted record does not
depend on the candidate keys or on the scorer, so no fuzzy comparison takes
place — and the remaining rows are still processed. -/
theorem C10_empty_key_unmatched (ratio : List Char → List Char → Nat) (thr : Nat)
    (advKeys : List (List Char)) (r : Row) (k : List Char)
    (rest : List (Row × List Char)) (h : k = []) :
    matchRawLoop ratio thr advKeys ((r, k) :: rest) =
      ⟨r, false, 0, none⟩ :: matchRawLoop ratio thr advKeys rest := by
  simp [matchRawLoop, rawStep, h]

/-- Witness for C10 at a concrete input. -/
theorem C10_witness :
    matchRawLoop specTokenSetScore 90 ["ann bell | acme".data]
      [([("First_Name_", Cell.str "")], [])] =
      [⟨[("First_Name_", Cell.str "")], false, 0, none⟩] :=
  C10_empty_key_unmatched specTokenSetScore 90 ["ann bell | acme".data]
    [("First_Name_", Cell.str "")] [] [] rfl

/-! ## C9: no CRD column at all — exact-key stage becomes a no-op -/

/-- C9: when none of the CRD column-name variants is present in the internal
table, `match_contacts_by_crd_and_email` logs a warning and returns (it does
not abort): every external row is output unmatched with score 0 and null
candidate-sourced fields, in the original order. -/
theorem C9_no_crd_column (advTab swTab : Table) (emailParam idHint : String)
    (h : ∀ c ∈ crdColCandidates, c ∉ advTab.cols) :
    (match_contacts_by_crd_and_email advTab swTab emailParam idHint).warnedNoCrd = true ∧
      (match_contacts_by_crd_and_email advTab swTab emailParam idHint).rows =
        swTab.rows.map (fun r => ⟨r, CrdKind.unmatched, 0, none, none⟩) := by
  have hf : firstPresent advTab.cols crdColCandidates = none := by
    apply List.find?_eq_none.mpr
    intro c hc
    simpa using h c hc
  unfold match_contacts_by_crd_and_email
  rw [hf]
  exact ⟨rfl, rfl⟩

/-- Witness for C9 at a concrete input. -/
theorem C9_witness :
    (match_contacts_by_crd_and_email ⟨["Name"], [[("Name", Cell.str "a")]]⟩
        ⟨["Matched_CRD"], [[("Matched_CRD", Cell.num 7)]]⟩ "Email_" "Record_ID").warnedNoCrd
        = true ∧
      (match_contacts_by_crd_and_email ⟨["Name"], [[("Name", Cell.str "a")]]⟩
        ⟨["Matched_CRD"], [[("Matched_CRD", Cell.num 7)]]⟩ "Email_" "Record_ID").rows =
        [⟨[("Matched_CRD", Cell.num 7)], CrdKind.unmatched, 0, none, none⟩] :=
  C9_no_crd_column ⟨["Name"], [[("Name", Cell.str "a")]]⟩
    ⟨["Matched_CRD"], [[("Matched_CRD", Cell.num 7)]]⟩ "Email_" "Record_ID"
    (by decide)

/-! ## C7: blocking never empties a non-empty candidate pool -/

/-- The domain restriction keeps a non-empty pool non-empty. -/
theorem blockDomain_ne_nil (P : FuzzyCols) (d : List Char)
    (unused : List (Nat × AdvSt)) (h : unused ≠ []) :
    blockDomain P d unused ≠ [] := by
  simp only [blockDomain]
  split
  · exact h
  · split
    · exact h
    · assumption

/-- C7: neither blocking chain can return an empty pool from a non-empty
unrestricted pool: in match_discovery.py the email-domain and name-initials
filters, and in match_raw_data.py the key-length/first-character filter, are
each discarded in favour of the unfiltered pool whenever they would empty
it. -/
theorem C7_blocking_nonempty :
    (∀ (P : FuzzyCols) (d f l : List Char) (unused : List (Nat × AdvSt)),
      unused ≠ [] → blockCandidates P d f l unused ≠ []) ∧
    (∀ (sk : List Char) (advKeys : List (List Char)),
      advKeys ≠ [] → rawBlock sk advKeys ≠ []) := by
  constructor
  · intro P d f l unused h
    simp only [blockCandidates]
    split
    · split
      · exact h
      · assumption
    · exact blockDomain_ne_nil P d unused h
  · intro sk advKeys h
    simp only [rawBlock]
    split
    · split
      · exact h
      · assumption
    · exact h

/-- Witness for C7 at concrete inputs. -/
theorem C7_witness :
    blockCandidates defaultFuzzyCols "x.com".data "ann".data "bell".data
        [(0, ⟨[], "a@y.com".data, false⟩)] ≠ [] ∧
      rawBlock "ann bell | acme".data ["zz".data] ≠ [] :=
  ⟨C7_blocking_nonempty.1 defaultFuzzyCols "x.com".data "ann".data "bell".data
      [(0, ⟨[], "a@y.com".data, false⟩)] (by decide),
   C7_blocking_nonempty.2 "ann bell | acme".data ["zz".data] (by decide)⟩

/-! ## C5: one output row per input row, in input order -/

/-- Every branch of the CRD per-row result carries the original row. -/
theorem crdRowResult_row (advTab : Table) (crdCol advEmailCol : String)
    (advIdCol : Option String) (hasM : Bool) (r : Row) :
    (crdRowResult advTab crdCol advEmailCol advIdCol hasM r).row = r := by
  simp only [crdRowResult]
  split
  · split
    · split <;> rfl
    · rfl
  · rfl

/-- Pointwise-identity map. -/
theorem map_eq_self_of_eq {α : Type} (f : α → α) (l : List α)
    (h : ∀ x, f x = x) : l.map f = l := by
  induction l with
  | nil => rfl
  | cons a t ih => simp [h a, ih]

/-- The step emits the query row and index unchanged, whatever branch is
taken. -/
theorem step_sw_fields (ratio : List Char → List Char → Nat) (P : FuzzyCols)
    (thr : Nat) (swCols : List String) (adv : List AdvSt) (i : Nat) (r : Row) :
    ((step ratio P thr swCols adv i r).2).swIndex = i ∧
      ((step ratio P thr swCols adv i r).2).swRow = r := by
  simp only [step, stepFuzzy, fuzzySelect]
  split
  · split
    · split <;> exact ⟨rfl, rfl⟩
    · exact ⟨rfl, rfl⟩
  · split
    · exact ⟨rfl, rfl⟩
    · split
      · split <;> exact ⟨rfl, rfl⟩
      · exact ⟨rfl, rfl⟩

/-- The loop emits exactly the query rows, in order. -/
theorem runFuzzyAux_map_swRow (ratio : List Char → List Char → Nat) (P : FuzzyCols)
    (thr : Nat) (swCols : List String) (l : List (Nat × Row)) :
    ∀ adv, (runFuzzyAux ratio P thr swCols adv l).map FOut.swRow = l.map Prod.snd := by
  induction l with
  | nil => intro adv; rfl
  | cons p rest ih =>
    intro adv
    obtain ⟨i, r⟩ := p
    simp only [runFuzzyAux, List.map_cons]
    rw [(step_sw_fields ratio P thr swCols adv i r).2, ih]

/-- The loop emits exactly the query indices, in order. -/
theorem runFuzzyAux_map_swIndex (ratio : List Char → List Char → Nat) (P : FuzzyCols)
    (thr : Nat) (swCols : List String) (l : List (Nat × Row)) :
    ∀ adv, (runFuzzyAux ratio P thr swCols adv l).map FOut.swIndex = l.map Prod.fst := by
  induction l with
  | nil => intro adv; rfl
  | cons p rest ih =>
    intro adv
    obtain ⟨i, r⟩ := p
    simp only [runFuzzyAux, List.map_cons]
    rw [(step_sw_fields ratio P thr swCols adv i r).1, ih]

theorem enumRows_map_snd (l : List Row) : ∀ n, (enumRows n l).map Prod.snd = l := by
  induction l with
  | nil => intro n; rfl
  | cons r rest ih => intro n; simp [enumRows, ih]

theorem enumRows_map_fst (l : List Row) :
    ∀ n, (enumRows n l).map Prod.fst = List.range' n l.length := by
  induction l with
  | nil => intro n; rfl
  | cons r rest ih => intro n; simp [enumRows, ih, List.range'_succ]

/-- C5: for every run, each matcher of match_discovery.py emits exactly one
output row per external input row, carrying that input row, in the original
input order — for the CRD merge and for the email/fuzzy matcher (whose
emitted `schwab__index` values are exactly `0, 1, 2, …` in order). -/
theorem C5_row_parity (advTab swTab : Table) (emailParam idHint : String)
    (ratio : List Char → List Char → Nat) (P : FuzzyCols) (thr : Nat) :
    (match_contacts_by_crd_and_email advTab swTab emailParam idHint).rows.map CrdOut.row
        = swTab.rows ∧
      (match_unmatched_by_email_then_fuzzy ratio P thr advTab swTab).map FOut.swRow
        = swTab.rows ∧
      (match_unmatched_by_email_then_fuzzy ratio P thr advTab swTab).map FOut.swIndex
        = List.range swTab.rows.length := by
  refine ⟨?_, ?_, ?_⟩
  · simp only [match_contacts_by_crd_and_email]
    cases hc : firstPresent advTab.cols crdColCandidates with
    | none =>
      simp only [hc]
      rw [List.map_map]
      exact map_eq_self_of_eq _ _ (fun r => rfl)
    | some crdCol =>
      simp only [hc]
      rw [List.map_map]
      exact map_eq_self_of_eq _ _ (fun r => crdRowResult_row _ _ _ _ _ r)
  · unfold match_unmatched_by_email_then_fuzzy
    rw [runFuzzyAux_map_swRow, enumRows_map_snd]
  · unfold match_unmatched_by_email_then_fuzzy
    rw [runFuzzyAux_map_swIndex, enumRows_map_fst, List.range_eq_range']

/-! ## C6: exact email match takes priority over fuzzy -/

theorem markUsed_get?_eq (adv : List AdvSt) :
    ∀ i, (markUsed adv i).get? i =
      (adv.get? i).map (fun a => ⟨a.row, a.emailNorm, true⟩) := by
  induction adv with
  | nil => intro i; rfl
  | cons a t ih =>
    intro i
    cases i with
    | zero => rfl
    | succ n => simpa [markUsed] using ih n

/-- A successful email lookup returns a not-yet-consumed candidate with the
queried email. -/
theorem findEmailIdx_some (e : List Char) (adv : List AdvSt) :
    ∀ i, findEmailIdx e adv = some i →
      ∃ a, adv.get? i = some a ∧ a.used = false ∧ a.emailNorm = e := by
  induction adv with
  | nil => intro i h; exact absurd h (by simp [findEmailIdx])
  | cons a t ih =>
    intro i h
    by_cases hc : a.used = false ∧ a.emailNorm = e
    · rw [findEmailIdx, if_pos hc] at h
      obtain rfl : i = 0 := by exact (Option.some_inj.mp h).symm
      exact ⟨a, rfl, hc.1, hc.2⟩
    · rw [findEmailIdx, if_neg hc] at h
      obtain ⟨j, hj, rfl⟩ := Option.map_eq_some'.mp h
      obtain ⟨b, hb, hbu, hbe⟩ := ih j hj
      exact ⟨b, by simpa using hb, hbu, hbe⟩

/-- If some not-yet-consumed candidate has the queried email, the lookup
succeeds. -/
theorem findEmailIdx_isSome (e : List Char) (adv : List AdvSt) :
    ∀ j a, adv.get? j = some a → a.used = false → a.emailNorm = e →
      (findEmailIdx e adv).isSome := by
  induction adv with
  | nil => intro j a hj; simp at hj
  | cons b t ih =>
    intro j a hj hu he
    by_cases hc : b.used = false ∧ b.emailNorm = e
    · rw [findEmailIdx, if_pos hc]; rfl
    · rw [findEmailIdx, if_neg hc]
      cases j with
      | zero =>
        obtain rfl : b = a := by simpa using hj
        exact absurd ⟨hu, he⟩ hc
      | succ n =>
        have := ih n a (by simpa using hj) hu he
        simpa [Option.isSome_map] using this

/-- C6: a query whose non-empty normalized email equals the normalized email
of at least one not-yet-consumed candidate is resolved by the exact email
stage: the result kind is `email_matched` with score 100, the first such
candidate is the one consumed (its `_used` flag is set), and the record never
reaches the fuzzy branch. -/
theorem C6_email_priority (ratio : List Char → List Char → Nat) (P : FuzzyCols)
    (thr : Nat) (swCols : List String) (adv : List AdvSt) (swIdx : Nat) (swRow : Row)
    (e : List Char) (he : normEmail (colSeries swCols swRow P.swEmailCol) = e)
    (hne : e ≠ [])
    (hex : ∃ j a, adv.get? j = some a ∧ a.used = false ∧ a.emailNorm = e) :
    ∃ i a, findEmailIdx e adv = some i ∧ adv.get? i = some a ∧ a.used = false ∧
      a.emailNorm = e ∧
      step ratio P thr swCols adv swIdx swRow =
        (markUsed adv i, ⟨some i, some a.row, swIdx, swRow, FKind.email_matched, 100⟩) ∧
      (markUsed adv i).get? i = some ⟨a.row, a.emailNorm, true⟩ := by
  obtain ⟨j, a0, hj, hu, hem⟩ := hex
  obtain ⟨i, hi⟩ := Option.isSome_iff_exists.mp (findEmailIdx_isSome e adv j a0 hj hu hem)
  obtain ⟨a, ha, hau, hae⟩ := findEmailIdx_some e adv i hi
  refine ⟨i, a, hi, ha, hau, hae, ?_, ?_⟩
  · simp only [step, he, if_neg hne, hi, ha, Option.map_some']
  · rw [markUsed_get?_eq, ha]; rfl

/-- Concrete internal state and query row for the C6 witness. -/
def c6Adv : List AdvSt := [⟨[("Email_", Cell.str "A@x.com")], "a@x.com".data, false⟩]

def c6Row : Row := [("Email_Address", Cell.str "a@x.com ")]

/-- Witness for C6 at a concrete input. -/
theorem C6_witness :
    ∃ (i : Nat) (a : AdvSt), findEmailIdx "a@x.com".data c6Adv = some i ∧
      c6Adv.get? i = some a ∧
      a.used = false ∧ a.emailNorm = "a@x.com".data ∧
      step specTokenSetScore defaultFuzzyCols 80 ["Email_Address"] c6Adv 0 c6Row =
        (markUsed c6Adv i,
         ⟨some i, some a.row, 0, c6Row, FKind.email_matched, 100⟩) ∧
      (markUsed c6Adv i).get? i = some ⟨a.row, a.emailNorm, true⟩ :=
  C6_email_priority specTokenSetScore defaultFuzzyCols 80 ["Email_Address"]
    c6Adv 0 c6Row "a@x.com".data (by decide) (by decide)
    ⟨0, ⟨[("Email_", Cell.str "A@x.com")], "a@x.com".data, false⟩, by decide, rfl, rfl⟩

/-! ## C3: results when no match stage succeeds -/

/-- When the best blocked fuzzy score is below the threshold, the fuzzy stage
leaves the consumption state unchanged and emits `unmatched` with score 0 and
null candidate fields. -/
theorem stepFuzzy_unmatched (ratio : List Char → List Char → Nat) (P : FuzzyCols)
    (thr : Nat) (adv : List AdvSt) (swIdx : Nat) (swRow : Row)
    (h : (fuzzyBestAux ratio P (swKeyOf P swRow) (0, none)
        (blockCandidates P (swDomainOf P swRow) (namePart swRow P.swFirstCol)
          (namePart swRow P.swLastCol)
          ((enumFromN 0 adv).filter (fun x => x.2.used = false)))).1 < thr) :
    stepFuzzy ratio P thr adv swIdx swRow =
      (adv, ⟨none, none, swIdx, swRow, FKind.unmatched, 0⟩) := by
  simp only [stepFuzzy, fuzzySelect]
  split
  · rw [if_neg (by omega)]
  · rfl

/-- C3 (amended): in the discovery email/fuzzy matcher, a query for which no
stage succeeds (no exact email match, best blocked fuzzy score below the
threshold) is emitted `unmatched` with score 0 and null candidate-sourced
fields, with no candidate consumed.  In `match_by_name_and_company`, a query
whose best score falls below the threshold is emitted with `Matched = False`
but carries the observed best score, not 0. -/
theorem C3_no_match_semantics :
    (∀ (ratio : List Char → List Char → Nat) (P : FuzzyCols) (thr : Nat)
       (swCols : List String) (adv : List AdvSt) (swIdx : Nat) (swRow : Row),
      (normEmail (colSeries swCols swRow P.swEmailCol) = [] ∨
        findEmailIdx (normEmail (colSeries swCols swRow P.swEmailCol)) adv = none) →
      (fuzzyBestAux ratio P (swKeyOf P swRow) (0, none)
        (blockCandidates P (swDomainOf P swRow) (namePart swRow P.swFirstCol)
          (namePart swRow P.swLastCol)
          ((enumFromN 0 adv).filter (fun x => x.2.used = false)))).1 < thr →
      step ratio P thr swCols adv swIdx swRow =
        (adv, ⟨none, none, swIdx, swRow, FKind.unmatched, 0⟩)) ∧
    (∀ (ratio : List Char → List Char → Nat) (thr : Nat)
       (advKeys : List (List Char)) (r : Row) (sk mk : List Char) (s : Nat),
      sk ≠ [] → extractOne ratio sk (rawBlock sk advKeys) = some (mk, s) → s < thr →
      rawStep ratio thr advKeys (r, sk) = ⟨r, false, s, none⟩) := by
  constructor
  · intro ratio P thr swCols adv swIdx swRow h1 h2
    by_cases hse : normEmail (colSeries swCols swRow P.swEmailCol) = []
    · simp only [step, if_pos hse]
      exact stepFuzzy_unmatched ratio P thr adv swIdx swRow h2
    · rcases h1 with h1 | h1
      · exact absurd h1 hse
      · simp only [step, if_neg hse, h1]
        exact stepFuzzy_unmatched ratio P thr adv swIdx swRow h2
  · intro ratio thr advKeys r sk mk s hsk hex hlt
    simp only [rawStep, if_neg hsk, hex]
    rw [if_neg (by omega)]

/-- Witness for C3 at concrete inputs. -/
theorem C3_witness :
    step specTokenSetScore defaultFuzzyCols 80 [] [] 0 [("A", Cell.str "x")] =
      ([], ⟨none, none, 0, [("A", Cell.str "x")], FKind.unmatched, 0⟩) ∧
    rawStep specTokenSetScore 90 ["xy".data] ([("A", Cell.str "x")], "ab".data) =
      ⟨[("A", Cell.str "x")], false, 0, none⟩ :=
  ⟨C3_no_match_semantics.1 specTokenSetScore defaultFuzzyCols 80 [] [] 0
      [("A", Cell.str "x")] (Or.inl (by decide)) (by decide),
   C3_no_match_semantics.2 specTokenSetScore 90 ["xy".data] [("A", Cell.str "x")]
      "ab".data "xy".data 0 (by decide) (by decide) (by decide)⟩

/-! ## C1: one-to-one consumption in the discovery email/fuzzy matcher -/

/-- Consumption state of internal record `k` (out-of-range indices count as
consumed, since they can never be selected). -/
def usedAt (adv : List AdvSt) (k : Nat) : Bool :=
  match adv.get? k with
  | some a => a.used
  | none => true

theorem usedAt_eq_of_get? (adv : List AdvSt) (k : Nat) (a : AdvSt)
    (h : adv.get? k = some a) : usedAt adv k = a.used := by
  unfold usedAt
  rw [h]

theorem markUsed_get?_ne (adv : List AdvSt) :
    ∀ i k, k ≠ i → (markUsed adv i).get? k = adv.get? k := by
  induction adv with
  | nil => intro i k _; rfl
  | cons a t ih =>
    intro i k hk
    cases i with
    | zero =>
      cases k with
      | zero => exact absurd rfl hk
      | succ m => rfl
    | succ n =>
      cases k with
      | zero => rfl
      | succ m => simpa [markUsed] using ih n m (by omega)

theorem usedAt_markUsed_self (adv : List AdvSt) (i : Nat) :
    usedAt (markUsed adv i) i = true := by
  unfold usedAt
  rw [markUsed_get?_eq]
  cases adv.get? i <;> rfl

theorem usedAt_markUsed_mono (adv : List AdvSt) (i k : Nat)
    (h : usedAt adv k = true) : usedAt (markUsed adv i) k = true := by
  by_cases hik : k = i
  · subst hik; exact usedAt_markUsed_self adv k
  · unfold usedAt at h ⊢
    rw [markUsed_get?_ne adv i k hik]
    exact h

theorem enumFromN_mem (l : List AdvSt) :
    ∀ n x, x ∈ enumFromN n l → l.get? (x.1 - n) = some x.2 ∧ n ≤ x.1 := by
  induction l with
  | nil => intro n x hx; simp [enumFromN] at hx
  | cons a t ih =>
    intro n x hx
    rcases List.mem_cons.mp hx with rfl | hx
    · simp
    · obtain ⟨h1, h2⟩ := ih (n + 1) x hx
      refine ⟨?_, by omega⟩
      have he : x.1 - n = (x.1 - (n + 1)) + 1 := by omega
      rw [he]
      simpa using h1

theorem blockDomain_subset (P : FuzzyCols) (d : List Char)
    (unused : List (Nat × AdvSt)) :
    ∀ x ∈ blockDomain P d unused, x ∈ unused := by
  intro x hx
  simp only [blockDomain] at hx
  split at hx
  · exact hx
  · split at hx
    · exact hx
    · exact (List.mem_filter.mp hx).1

theorem blockCandidates_subset (P : FuzzyCols) (d f l : List Char)
    (unused : List (Nat × AdvSt)) :
    ∀ x ∈ blockCandidates P d f l unused, x ∈ unused := by
  intro x hx
  simp only [blockCandidates] at hx
  split at hx
  · split at hx
    · exact hx
    · exact (List.mem_filter.mp hx).1
  · exact blockDomain_subset P d unused x hx

theorem fuzzyBestAux_some_mem (ratio : List Char → List Char → Nat) (P : FuzzyCols)
    (q : List Char) :
    ∀ (l : List (Nat × AdvSt)) (acc : Nat × Option Nat) (i : Nat),
      (fuzzyBestAux ratio P q acc l).2 = some i →
      acc.2 = some i ∨ ∃ x ∈ l, x.1 = i := by
  intro l
  induction l with
  | nil => intro acc i h; exact Or.inl h
  | cons x rest ih =>
    intro acc i h
    simp only [fuzzyBestAux] at h
    rcases ih _ i h with h' | h'
    · by_cases hc : ratio q (advKeyOf P x.2) > acc.1
      · rw [if_pos hc] at h'
        exact Or.inr ⟨x, List.mem_cons_self x rest, by simpa using h'⟩
      · rw [if_neg hc] at h'
        exact Or.inl h'
    · obtain ⟨y, hy, hyi⟩ := h'
      exact Or.inr ⟨y, List.mem_cons_of_mem x hy, hyi⟩

/-- A record selected by the blocked scoring loop was not yet consumed. -/
theorem fuzzySelected_unused (ratio : List Char → List Char → Nat) (P : FuzzyCols)
    (q : List Char) (adv : List AdvSt) (k : Nat)
    (h : (fuzzyBestAux ratio P q (0, none)
        (blockCandidates P (swDomainOf P q₀) f₀ l₀
          ((enumFromN 0 adv).filter (fun x => x.2.used = false)))).2 = some k) :
    usedAt adv k = false := by
  rcases fuzzyBestAux_some_mem ratio P q _ _ k h with h' | h'
  · simp at h'
  · obtain ⟨x, hx, rfl⟩ := h'
    have hx' := blockCandidates_subset _ _ _ _ _ x hx
    have hmem := (List.mem_filter.mp hx').1
    have huse : x.2.used = false := by
      simpa using (List.mem_filter.mp hx').2
    have hget : adv.get? x.1 = some x.2 := by
      simpa using (enumFromN_mem adv 0 x hmem).1
    rw [usedAt_eq_of_get? adv x.1 x.2 hget]
    exact huse

/-- When the step consumes a record, that record was not yet consumed, and
the new state is exactly the old one with that record marked used. -/
theorem step_consumption (ratio : List Char → List Char → Nat) (P : FuzzyCols)
    (thr : Nat) (swCols : List String) (adv : List AdvSt) (i : Nat) (r : Row) :
    ∀ k, (step ratio P thr swCols adv i r).2.advIdx = some k →
      usedAt adv k = false ∧ (step ratio P thr swCols adv i r).1 = markUsed adv k := by
  intro k
  simp only [step, stepFuzzy, fuzzySelect]
  split
  · -- empty email: fuzzy stage
    split
    · rename_i j hj
      split
      · intro hk
        have hjk : j = k := by simpa using hk
        subst hjk
        exact ⟨fuzzySelected_unused ratio P _ adv j hj, rfl⟩
      · intro hk; simp at hk
    · intro hk; simp at hk
  · -- non-empty email
    split
    · rename_i j hj
      intro hk
      have hjk : j = k := by simpa using hk
      subst hjk
      obtain ⟨a, ha, hau, -⟩ := findEmailIdx_some _ adv j hj
      refine ⟨?_, rfl⟩
      rw [usedAt_eq_of_get? adv j a ha]
      exact hau
    · -- email lookup failed: fuzzy stage
      split
      · rename_i j hj
        split
        · intro hk
          have hjk : j = k := by simpa using hk
          subst hjk
          exact ⟨fuzzySelected_unused ratio P _ adv j hj, rfl⟩
        · intro hk; simp at hk
      · intro hk; simp at hk

/-- The step either leaves the consumption state unchanged or marks exactly
one record used. -/
theorem step_state_or (ratio : List Char → List Char → Nat) (P : FuzzyCols)
    (thr : Nat) (swCols : List String) (adv : List AdvSt) (i : Nat) (r : Row) :
    (step ratio P thr swCols adv i r).1 = adv ∨
      ∃ j, (step ratio P thr swCols adv i r).1 = markUsed adv j := by
  simp only [step, stepFuzzy, fuzzySelect]
  split
  · split
    · split
      · exact Or.inr ⟨_, rfl⟩
      · exact Or.inl rfl
    · exact Or.inl rfl
  · split
    · exact Or.inr ⟨_, rfl⟩
    · split
      · split
        · exact Or.inr ⟨_, rfl⟩
        · exact Or.inl rfl
      · exact Or.inl rfl

/-- Consumed records are never selected again by the rest of the run. -/
theorem runFuzzyAux_no_reuse (ratio : List Char → List Char → Nat) (P : FuzzyCols)
    (thr : Nat) (swCols : List String) :
    ∀ (l : List (Nat × Row)) (adv : List AdvSt) (k : Nat), usedAt adv k = true →
      ∀ rec ∈ runFuzzyAux ratio P thr swCols adv l, rec.advIdx ≠ some k := by
  intro l
  induction l with
  | nil => intro adv k _ rec hrec; simp [runFuzzyAux] at hrec
  | cons p rest ih =>
    intro adv k hused rec hrec
    obtain ⟨i, r⟩ := p
    simp only [runFuzzyAux, List.mem_cons] at hrec
    rcases hrec with rfl | hrec
    · intro hk
      have hfalse := (step_consumption ratio P thr swCols adv i r k hk).1
      rw [hused] at hfalse
      simp at hfalse
    · have hnext : usedAt (step ratio P thr swCols adv i r).1 k = true := by
        rcases step_state_or ratio P thr swCols adv i r with h | ⟨j, h⟩
        · rw [h]; exact hused
        · rw [h]; exact usedAt_markUsed_mono adv j k hused
      exact ih _ k hnext rec hrec

theorem runFuzzyAux_pairwise (ratio : List Char → List Char → Nat) (P : FuzzyCols)
    (thr : Nat) (swCols : List String) :
    ∀ (l : List (Nat × Row)) (adv : List AdvSt),
      List.Pairwise (fun a b => ∀ k, a.advIdx = some k → b.advIdx ≠ some k)
        (runFuzzyAux ratio P thr swCols adv l) := by
  intro l
  induction l with
  | nil => intro adv; exact List.Pairwise.nil
  | cons p rest ih =>
    intro adv
    obtain ⟨i, r⟩ := p
    refine List.Pairwise.cons ?_ (ih _)
    intro b hb k hk
    have h1 := (step_consumption ratio P thr swCols adv i r k hk).2
    have h2 : usedAt (step ratio P thr swCols adv i r).1 k = true := by
      rw [h1]; exact usedAt_markUsed_self adv k
    exact runFuzzyAux_no_reuse ratio P thr swCols rest _ k h2 b hb

/-- C1 (amended): in `match_unmatched_by_email_then_fuzzy`, no internal
record is referenced by more than one output match — the consumed indices of
the emitted records are pairwise distinct, because an email or fuzzy match
consumes a not-yet-used record, marks it used, and used records are excluded
from every later candidate set of the run. -/
theorem C1_one_to_one_discovery (ratio : List Char → List Char → Nat)
    (P : FuzzyCols) (thr : Nat) (advTab swTab : Table) :
    List.Pairwise (fun a b => ∀ k, a.advIdx = some k → b.advIdx ≠ some k)
      (match_unmatched_by_email_then_fuzzy ratio P thr advTab swTab) := by
  unfold match_unmatched_by_email_then_fuzzy
  exact runFuzzyAux_pairwise ratio P thr swTab.cols _ _

/-! ## C4: the discovery normalizer strips only a trailing whole-word token -/

/-- Characterization of the trailing-suffix strip: it either leaves the
string unchanged or removes exactly one configured token occurring as a
trailing whole word (optionally followed by one dot), returning the prefix
before it verbatim. -/
theorem stripTrailingSuffix_cases (s : List Char) :
    stripTrailingSuffix s = s ∨
      ∃ (p : List Char) (tok : String), tok ∈ suffixTokens ∧
        (s = p ++ tok.data ∨ s = p ++ tok.data ++ ['.']) ∧
        boundaryBefore p = true ∧ stripTrailingSuffix s = p := by
  rcases hf : suffixTokens.find? (fun tok => trailingTokenMatch tok (stripPre s))
    with _ | tok
  · left
    simp only [stripTrailingSuffix]
    rw [hf]
  · right
    have hmatch := List.find?_some hf
    have hmem := List.mem_of_find?_eq_some hf
    simp only [trailingTokenMatch, Bool.and_eq_true] at hmatch
    obtain ⟨hsuf, hbound⟩ := hmatch
    obtain ⟨p, hp⟩ := List.isSuffixOf_iff_suffix.mp hsuf
    have htake : (stripPre s).take ((stripPre s).length - tok.data.length) = p := by
      rw [← hp]
      have hl : (p ++ tok.data).length - tok.data.length = p.length := by
        simp
      rw [hl, List.take_left]
    refine ⟨p, tok, hmem, ?_, ?_, ?_⟩
    · by_cases hdot : s.getLast? = some '.'
      · right
        have hne : s ≠ [] := by
          intro h; rw [h] at hdot; simp at hdot
        have hlast : s.getLast hne = '.' := by
          have := List.getLast?_eq_getLast s hne
          rw [hdot] at this
          exact (Option.some_inj.mp this).symm
        have hsplit := List.dropLast_append_getLast hne
        rw [hlast] at hsplit
        have hpre : stripPre s = s.dropLast := by simp [stripPre, hdot]
        rw [hpre] at hp
        rw [← hsplit, ← hp]
      · left
        have hpre : stripPre s = s := by simp [stripPre, hdot]
        rw [hpre] at hp
        exact hp.symm
    · rw [htake] at hbound
      exact hbound
    · simp only [stripTrailingSuffix]
      rw [hf]
      exact htake

/-! ## C8: blocked fuzzy stage — scoring, selection, threshold, consumption -/

theorem fuzzyBestAux_fst (ratio : List Char → List Char → Nat) (P : FuzzyCols)
    (q : List Char) :
    ∀ (l : List (Nat × AdvSt)) (acc : Nat × Option Nat),
      (fuzzyBestAux ratio P q acc l).1 =
        (l.map (fun x => ratio q (advKeyOf P x.2))).foldl Nat.max acc.1 := by
  intro l
  induction l with
  | nil => intro acc; rfl
  | cons x rest ih =>
    intro acc
    simp only [fuzzyBestAux, List.map_cons, List.foldl_cons]
    rw [ih]
    congr 1
    by_cases hc : ratio q (advKeyOf P x.2) > acc.1
    · rw [if_pos hc]
      exact (Nat.max_eq_right (by omega)).symm
    · rw [if_neg hc]
      exact (Nat.max_eq_left (by omega)).symm

theorem fuzzyBestAux_none_eq (ratio : List Char → List Char → Nat) (P : FuzzyCols)
    (q : List Char) :
    ∀ (l : List (Nat × AdvSt)) (acc : Nat × Option Nat),
      (fuzzyBestAux ratio P q acc l).2 = none → fuzzyBestAux ratio P q acc l = acc := by
  intro l
  induction l with
  | nil => intro acc _; rfl
  | cons x rest ih =>
    intro acc h
    simp only [fuzzyBestAux] at h ⊢
    have hres := ih _ h
    rw [hres] at h
    by_cases hc : ratio q (advKeyOf P x.2) > acc.1
    · rw [if_pos hc] at h
      simp at h
    · rw [if_neg hc] at hres ⊢
      exact hres

/-- First-strict-max characterization of the scoring loop: either no
candidate beats the accumulator (which is returned unchanged), or the result
is the score and index of the first candidate achieving the overall best,
every earlier candidate scoring strictly less and every candidate scoring at
most the result. -/
theorem fuzzyBestAux_cases (ratio : List Char → List Char → Nat) (P : FuzzyCols)
    (q : List Char) :
    ∀ (l : List (Nat × AdvSt)) (acc : Nat × Option Nat),
      (fuzzyBestAux ratio P q acc l = acc ∧
        ∀ x ∈ l, ratio q (advKeyOf P x.2) ≤ acc.1) ∨
      (∃ k, ∃ hk : k < l.length,
        (fuzzyBestAux ratio P q acc l).1 = ratio q (advKeyOf P (l.get ⟨k, hk⟩).2) ∧
        (fuzzyBestAux ratio P q acc l).2 = some (l.get ⟨k, hk⟩).1 ∧
        acc.1 < (fuzzyBestAux ratio P q acc l).1 ∧
        (∀ k', ∀ hk' : k' < l.length, k' < k →
          ratio q (advKeyOf P (l.get ⟨k', hk'⟩).2) < (fuzzyBestAux ratio P q acc l).1) ∧
        (∀ k', ∀ hk' : k' < l.length,
          ratio q (advKeyOf P (l.get ⟨k', hk'⟩).2) ≤ (fuzzyBestAux ratio P q acc l).1)) := by
  intro l
  induction l with
  | nil => intro acc; exact Or.inl ⟨rfl, by simp⟩
  | cons x rest ih =>
    intro acc
    by_cases hup : ratio q (advKeyOf P x.2) > acc.1
    · have hacc' : fuzzyBestAux ratio P q acc (x :: rest) =
          fuzzyBestAux ratio P q (ratio q (advKeyOf P x.2), some x.1) rest := by
        simp only [fuzzyBestAux, if_pos hup]
      rcases ih (ratio q (advKeyOf P x.2), some x.1) with ⟨heq, hle⟩ | ⟨k, hk, h1, h2, h3, h4, h5⟩
      · right
        rw [hacc', heq]
        refine ⟨0, by simp, rfl, rfl, hup, ?_, ?_⟩
        · intro k' hk' hlt
          omega
        · intro k' hk'
          cases k' with
          | zero => exact Nat.le_refl _
          | succ j =>
            have hj : j < rest.length := by simpa using hk'
            exact hle (rest.get ⟨j, hj⟩) (rest.get_mem _ _)
      · right
        rw [hacc']
        refine ⟨k + 1, by simpa using Nat.succ_lt_succ hk, h1, h2, by omega, ?_, ?_⟩
        · intro k' hk' hlt
          cases k' with
          | zero =>
            have hx0 : ((x :: rest).get ⟨0, hk'⟩) = x := rfl
            rw [hx0]
            omega
          | succ j =>
            have hj : j < rest.length := by simpa using hk'
            exact h4 j hj (by omega)
        · intro k' hk'
          cases k' with
          | zero =>
            have hx0 : ((x :: rest).get ⟨0, hk'⟩) = x := rfl
            rw [hx0]
            omega
          | succ j =>
            have hj : j < rest.length := by simpa using hk'
            exact h5 j hj
    · have hacc' : fuzzyBestAux ratio P q acc (x :: rest) =
          fuzzyBestAux ratio P q acc rest := by
        simp only [fuzzyBestAux, if_neg hup]
      rcases ih acc with ⟨heq, hle⟩ | ⟨k, hk, h1, h2, h3, h4, h5⟩
      · left
        refine ⟨by rw [hacc', heq], ?_⟩
        intro y hy
        rcases List.mem_cons.mp hy with rfl | hy
        · omega
        · exact hle y hy
      · right
        rw [hacc']
        refine ⟨k + 1, by simpa using Nat.succ_lt_succ hk, h1, h2, h3, ?_, ?_⟩
        · intro k' hk' hlt
          cases k' with
          | zero =>
            have hx0 : ((x :: rest).get ⟨0, hk'⟩) = x := rfl
            rw [hx0]
            omega
          | succ j =>
            have hj : j < rest.length := by simpa using hk'
            exact h4 j hj (by omega)
        · intro k' hk'
          cases k' with
          | zero =>
            have hx0 : ((x :: rest).get ⟨0, hk'⟩) = x := rfl
            rw [hx0]
            omega
          | succ j =>
            have hj : j < rest.length := by simpa using hk'
            exact h5 j hj

theorem extractBest_fst (ratio : List Char → List Char → Nat) (q : List Char) :
    ∀ (l : List (List Char)) (acc : List Char × Nat),
      (extractBest ratio q acc l).2 = (l.map (ratio q)).foldl Nat.max acc.2 := by
  intro l
  induction l with
  | nil => intro acc; rfl
  | cons x rest ih =>
    intro acc
    simp only [extractBest, List.map_cons, List.foldl_cons]
    rw [ih]
    congr 1
    by_cases hc : ratio q x > acc.2
    · rw [if_pos hc]
      exact (Nat.max_eq_right (by omega)).symm
    · rw [if_neg hc]
      exact (Nat.max_eq_left (by omega)).symm

/-- First-strict-max characterization of `extractBest`. -/
theorem extractBest_cases (ratio : List Char → List Char → Nat) (q : List Char) :
    ∀ (l : List (List Char)) (acc : List Char × Nat),
      (extractBest ratio q acc l = acc ∧ ∀ x ∈ l, ratio q x ≤ acc.2) ∨
      (∃ k, ∃ hk : k < l.length,
        extractBest ratio q acc l = (l.get ⟨k, hk⟩, ratio q (l.get ⟨k, hk⟩)) ∧
        acc.2 < ratio q (l.get ⟨k, hk⟩) ∧
        (∀ k', ∀ hk' : k' < l.length, k' < k →
          ratio q (l.get ⟨k', hk'⟩) < ratio q (l.get ⟨k, hk⟩)) ∧
        (∀ k', ∀ hk' : k' < l.length,
          ratio q (l.get ⟨k', hk'⟩) ≤ ratio q (l.get ⟨k, hk⟩))) := by
  intro l
  induction l with
  | nil => intro acc; exact Or.inl ⟨rfl, by simp⟩
  | cons x rest ih =>
    intro acc
    by_cases hup : ratio q x > acc.2
    · have hacc' : extractBest ratio q acc (x :: rest) =
          extractBest ratio q (x, ratio q x) rest := by
        simp only [extractBest, if_pos hup]
      rcases ih (x, ratio q x) with ⟨heq, hle⟩ | ⟨k, hk, h1, h2, h3, h4⟩
      · right
        rw [hacc', heq]
        refine ⟨0, by simp, rfl, hup, ?_, ?_⟩
        · intro k' hk' hlt
          omega
        · intro k' hk'
          cases k' with
          | zero => exact Nat.le_refl _
          | succ j =>
            have hj : j < rest.length := by simpa using hk'
            exact hle (rest.get ⟨j, hj⟩) (rest.get_mem _ _)
      · right
        rw [hacc']
        refine ⟨k + 1, by simpa using Nat.succ_lt_succ hk, h1, Nat.lt_trans hup h2, ?_, ?_⟩
        · intro k' hk' hlt
          cases k' with
          | zero => exact h2
          | succ j =>
            have hj : j < rest.length := by simpa using hk'
            exact h3 j hj (by omega)
        · intro k' hk'
          cases k' with
          | zero => exact Nat.le_of_lt h2
          | succ j =>
            have hj : j < rest.length := by simpa using hk'
            exact h4 j hj
    · have hacc' : extractBest ratio q acc (x :: rest) =
          extractBest ratio q acc rest := by
        simp only [extractBest, if_neg hup]
      rcases ih acc with ⟨heq, hle⟩ | ⟨k, hk, h1, h2, h3, h4⟩
      · left
        refine ⟨by rw [hacc', heq], ?_⟩
        intro y hy
        rcases List.mem_cons.mp hy with rfl | hy
        · omega
        · exact hle y hy
      · right
        rw [hacc']
        refine ⟨k + 1, by simpa using Nat.succ_lt_succ hk, h1, h2, ?_, ?_⟩
        · intro k' hk' hlt
          cases k' with
          | zero => exact Nat.lt_of_le_of_lt (Nat.le_of_not_lt hup) h2
          | succ j =>
            have hj : j < rest.length := by simpa using hk'
            exact h3 j hj (by omega)
        · intro k' hk'
          cases k' with
          | zero => exact Nat.le_of_lt (Nat.lt_of_le_of_lt (Nat.le_of_not_lt hup) h2)
          | succ j =>
            have hj : j < rest.length := by simpa using hk'
            exact h4 j hj

/-- `extractOne` on a non-empty pool: it scores every candidate, returns the
maximum score, and the winning key is the first candidate achieving it. -/
theorem extractOne_spec (ratio : List Char → List Char → Nat) (q : List Char)
    (cands : List (List Char)) (hne : cands ≠ []) :
    ∃ mk s, extractOne ratio q cands = some (mk, s) ∧
      s = (cands.map (ratio q)).foldl Nat.max 0 ∧
      ∃ k, ∃ hk : k < cands.length, cands.get ⟨k, hk⟩ = mk ∧
        ratio q (cands.get ⟨k, hk⟩) = s ∧
        ∀ k', ∀ hk' : k' < cands.length, k' < k →
          ratio q (cands.get ⟨k', hk'⟩) < s := by
  obtain ⟨k0, rest, rfl⟩ : ∃ k0 rest, cands = k0 :: rest := by
    cases cands with
    | nil => exact absurd rfl hne
    | cons a b => exact ⟨a, b, rfl⟩
  have hone : extractOne ratio q (k0 :: rest) =
      some (extractBest ratio q (k0, ratio q k0) rest) := rfl
  have hfold : (extractBest ratio q (k0, ratio q k0) rest).2 =
      ((k0 :: rest).map (ratio q)).foldl Nat.max 0 := by
    rw [extractBest_fst]
    simp [Nat.zero_max]
  rcases extractBest_cases ratio q rest (k0, ratio q k0) with ⟨heq, hle⟩ | ⟨k, hk, h1, h2, h3, h4⟩
  · refine ⟨k0, ratio q k0, by rw [hone, heq], ?_, 0, by simp, rfl, rfl, ?_⟩
    · rw [← hfold, heq]
    · intro k' hk' hlt
      omega
  · refine ⟨rest.get ⟨k, hk⟩, ratio q (rest.get ⟨k, hk⟩), by rw [hone, h1], ?_,
      k + 1, by simpa using Nat.succ_lt_succ hk, rfl, rfl, ?_⟩
    · rw [← hfold, h1]
    · intro k' hk' hlt
      cases k' with
      | zero =>
        have hx0 : ((k0 :: rest).get ⟨0, hk'⟩) = k0 := rfl
        rw [hx0]
        omega
      | succ j =>
        have hj : j < rest.length := by simpa using hk'
        exact h3 j hj (by omega)

/-- C8 (amended): in the blocked fuzzy stage the query is scored against
every candidate in the pool (the best score is the maximum of all candidate
scores); the candidate selected is the first one with the strictly highest
score; `fuzzy_matched` carrying the observed best score is emitted exactly
when that score meets the threshold (given as 80 or 90 at the call sites),
and the discovery matcher then marks the selected candidate consumed.  In
`match_by_name_and_company` the same scoring/selection/threshold behaviour
holds (via `process.extractOne`), the observed score is recorded, but no
candidate is ever marked consumed. -/
theorem C8_fuzzy_selection :
    (∀ (ratio : List Char → List Char → Nat) (P : FuzzyCols) (thr : Nat)
       (adv : List AdvSt) (cands : List (Nat × AdvSt)) (swIdx : Nat) (swRow : Row)
       (swKey : List Char), 1 ≤ thr →
      (fuzzyBestAux ratio P swKey (0, none) cands).1 =
        (cands.map (fun x => ratio swKey (advKeyOf P x.2))).foldl Nat.max 0 ∧
      (∀ i, (fuzzyBestAux ratio P swKey (0, none) cands).2 = some i →
        ∃ k, ∃ hk : k < cands.length, (cands.get ⟨k, hk⟩).1 = i ∧
          ratio swKey (advKeyOf P (cands.get ⟨k, hk⟩).2) =
            (fuzzyBestAux ratio P swKey (0, none) cands).1 ∧
          ∀ k', ∀ hk' : k' < cands.length, k' < k →
            ratio swKey (advKeyOf P (cands.get ⟨k', hk'⟩).2) <
              (fuzzyBestAux ratio P swKey (0, none) cands).1) ∧
      ((fuzzySelect ratio P thr adv cands swIdx swRow swKey).2.kind = FKind.fuzzy_matched ↔
        thr ≤ (fuzzyBestAux ratio P swKey (0, none) cands).1) ∧
      (∀ i, (fuzzyBestAux ratio P swKey (0, none) cands).2 = some i →
        thr ≤ (fuzzyBestAux ratio P swKey (0, none) cands).1 →
        fuzzySelect ratio P thr adv cands swIdx swRow swKey =
          (markUsed adv i, ⟨some i, (adv.get? i).map AdvSt.row, swIdx, swRow,
            FKind.fuzzy_matched, (fuzzyBestAux ratio P swKey (0, none) cands).1⟩))) ∧
    (∀ (ratio : List Char → List Char → Nat) (thr : Nat) (advKeys : List (List Char))
       (r : Row) (sk : List Char), sk ≠ [] → rawBlock sk advKeys ≠ [] →
      ∃ mk s, extractOne ratio sk (rawBlock sk advKeys) = some (mk, s) ∧
        s = ((rawBlock sk advKeys).map (ratio sk)).foldl Nat.max 0 ∧
        (∃ k, ∃ hk : k < (rawBlock sk advKeys).length,
          (rawBlock sk advKeys).get ⟨k, hk⟩ = mk ∧
          ratio sk ((rawBlock sk advKeys).get ⟨k, hk⟩) = s ∧
          ∀ k', ∀ hk' : k' < (rawBlock sk advKeys).length, k' < k →
            ratio sk ((rawBlock sk advKeys).get ⟨k', hk'⟩) < s) ∧
        (rawStep ratio thr advKeys (r, sk)).score = s ∧
        ((rawStep ratio thr advKeys (r, sk)).matched = true ↔ thr ≤ s)) := by
  constructor
  · intro ratio P thr adv cands swIdx swRow swKey hthr
    refine ⟨?_, ?_, ?_, ?_⟩
    · rw [fuzzyBestAux_fst]
    · intro i hi
      rcases fuzzyBestAux_cases ratio P swKey cands (0, none) with ⟨heq, -⟩ | ⟨k, hk, h1, h2, -, h4, -⟩
      · rw [heq] at hi
        simp at hi
      · rw [h2] at hi
        refine ⟨k, hk, by simpa using hi, h1.symm, h4⟩
    · constructor
      · intro hkind
        simp only [fuzzySelect] at hkind
        split at hkind
        · split at hkind
          · assumption
          · simp at hkind
        · simp at hkind
      · intro hge
        have hsome : ∃ i, (fuzzyBestAux ratio P swKey (0, none) cands).2 = some i := by
          cases hc : (fuzzyBestAux ratio P swKey (0, none) cands).2 with
          | none =>
            have := fuzzyBestAux_none_eq ratio P swKey cands (0, none) hc
            rw [this] at hge
            omega
          | some i => exact ⟨i, rfl⟩
        obtain ⟨i, hi⟩ := hsome
        simp only [fuzzySelect, hi, if_pos hge]
    · intro i hi hge
      simp only [fuzzySelect, hi, if_pos hge]
  · intro ratio thr advKeys r sk hsk hbl
    obtain ⟨mk, s, hex, hfold, hfirst⟩ := extractOne_spec ratio sk (rawBlock sk advKeys) hbl
    refine ⟨mk, s, hex, hfold, hfirst, ?_, ?_⟩
    · simp only [rawStep, if_neg hsk, hex]
      split <;> rfl
    · simp only [rawStep, if_neg hsk, hex]
      split
      · simpa using (by assumption : thr ≤ s)
      · constructor
        · intro hfalse
          simp at hfalse
        · intro hle
          omega

/-- Witness for C8 at concrete inputs. -/
theorem C8_witness :
    ((fuzzySelect specTokenSetScore defaultFuzzyCols 80 [] [] 0 [] []).2.kind =
        FKind.fuzzy_matched ↔
      80 ≤ (fuzzyBestAux specTokenSetScore defaultFuzzyCols [] (0, none) []).1) ∧
    (∃ mk s, extractOne specTokenSetScore "ann".data (rawBlock "ann".data ["ann".data])
        = some (mk, s) ∧
      s = ((rawBlock "ann".data ["ann".data]).map (specTokenSetScore "ann".data)).foldl
          Nat.max 0 ∧
      (∃ k, ∃ hk : k < (rawBlock "ann".data ["ann".data]).length,
        (rawBlock "ann".data ["ann".data]).get ⟨k, hk⟩ = mk ∧
        specTokenSetScore "ann".data ((rawBlock "ann".data ["ann".data]).get ⟨k, hk⟩) = s ∧
        ∀ k', ∀ hk' : k' < (rawBlock "ann".data ["ann".data]).length, k' < k →
          specTokenSetScore "ann".data ((rawBlock "ann".data ["ann".data]).get ⟨k', hk'⟩) < s) ∧
      (rawStep specTokenSetScore 90 ["ann".data] ([], "ann".data)).score = s ∧
      ((rawStep specTokenSetScore 90 ["ann".data] ([], "ann".data)).matched = true ↔ 90 ≤ s)) :=
  ⟨(C8_fuzzy_selection.1 specTokenSetScore defaultFuzzyCols 80 [] [] 0 [] []
      (by decide)).2.2.1,
   C8_fuzzy_selection.2 specTokenSetScore 90 ["ann".data] [] "ann".data
      (by decide) (by decide)⟩

/-! ## C2: idempotence of the normalizer — canonical-form machinery -/

theorem lowerCh_idem (c : Char) : lowerCh (lowerCh c) = lowerCh c := by
  by_cases h : 65 ≤ c.toNat ∧ c.toNat ≤ 90
  · have h1 : lowerCh c = Char.ofNat (c.toNat + 32) := by
      unfold lowerCh
      rw [if_pos h]
    have hv : (c.toNat + 32).isValidChar := Or.inl (by omega)
    have ht : (Char.ofNat (c.toNat + 32)).toNat = c.toNat + 32 := by
      unfold Char.ofNat
      rw [dif_pos hv]
      simp [Char.ofNatAux, Char.toNat, UInt32.toNat, UInt32.ofNatCore]
    rw [h1]
    unfold lowerCh
    rw [if_neg (by rw [ht]; omega)]
  · have h1 : lowerCh c = c := by
      unfold lowerCh
      rw [if_neg h]
    rw [h1, h1]

theorem dropWhile_head?_false (p : Char → Bool) (l : List Char) :
    ∀ c, (l.dropWhile p).head? = some c → p c = false := by
  induction l with
  | nil => intro c h; simp [List.dropWhile] at h
  | cons a t ih =>
    intro c h
    by_cases hp : p a
    · rw [List.dropWhile_cons_of_pos hp] at h
      exact ih c h
    · rw [List.dropWhile_cons_of_neg hp] at h
      obtain rfl : a = c := by simpa using h
      simpa using hp

theorem dropWhile_eq_self_of_head? (p : Char → Bool) (l : List Char)
    (h : ∀ c, l.head? = some c → p c = false) : l.dropWhile p = l := by
  cases l with
  | nil => rfl
  | cons a t =>
    have ha : p a = false := h a rfl
    rw [List.dropWhile_cons_of_neg (by simp [ha])]

theorem dropWhile_getLast?_of_ne_nil (p : Char → Bool) (l : List Char)
    (h : l.dropWhile p ≠ []) : (l.dropWhile p).getLast? = l.getLast? := by
  induction l with
  | nil => simp [List.dropWhile] at h
  | cons a t ih =>
    by_cases hp : p a
    · rw [List.dropWhile_cons_of_pos hp] at h ⊢
      have ht : t ≠ [] := by
        intro hnil
        rw [hnil] at h
        simp [List.dropWhile] at h
      rw [ih h]
      cases t with
      | nil => exact absurd rfl ht
      | cons b u => simp [List.getLast?_cons_cons]
    · rw [List.dropWhile_cons_of_neg hp]

theorem trimList_idem (l : List Char) : trimList (trimList l) = trimList l := by
  unfold trimList
  set A := l.dropWhile isSpaceCh with hA
  set B := A.reverse.dropWhile isSpaceCh with hB
  by_cases hBnil : B = []
  · rw [hBnil]
    rfl
  · have hBlast : B.getLast? = A.head? := by
      rw [hB, dropWhile_getLast?_of_ne_nil isSpaceCh A.reverse (by rw [← hB]; exact hBnil),
        List.getLast?_reverse]
    have hArev : ∀ c, B.reverse.head? = some c → isSpaceCh c = false := by
      intro c hc
      rw [List.head?_reverse, hBlast] at hc
      rw [hA] at hc
      exact dropWhile_head?_false isSpaceCh l c hc
    rw [dropWhile_eq_self_of_head? isSpaceCh B.reverse hArev, List.reverse_reverse,
      dropWhile_eq_self_of_head? isSpaceCh B
        (fun c hc => dropWhile_head?_false isSpaceCh A.reverse c (by rw [← hB]; exact hc))]

theorem mem_trimList (l : List Char) : ∀ c ∈ trimList l, c ∈ l := by
  intro c hc
  unfold trimList at hc
  rw [List.mem_reverse] at hc
  have h1 := (List.dropWhile_suffix isSpaceCh).subset hc
  rw [List.mem_reverse] at h1
  exact (List.dropWhile_suffix isSpaceCh).subset h1

theorem mem_stripTrailingSuffix (s : List Char) :
    ∀ c ∈ stripTrailingSuffix s, c ∈ s := by
  intro c hc
  unfold stripTrailingSuffix at hc
  split at hc
  · have h1 := List.take_subset _ _ hc
    unfold stripPre at h1
    split at h1
    · exact List.dropLast_subset s h1
    · exact h1
  · exact hc

theorem mem_squeeze (b : Bool) (l : List Char) :
    ∀ c ∈ squeeze b l, c = ' ' ∨ (c ∈ l ∧ isSpaceCh c = false) := by
  induction l generalizing b with
  | nil => intro c hc; simp [squeeze] at hc
  | cons a t ih =>
    intro c hc
    by_cases hs : isSpaceCh a
    · rw [squeeze, if_pos hs] at hc
      by_cases hb : b
      · subst hb
        rw [if_pos rfl] at hc
        rcases ih true c hc with h | ⟨h1, h2⟩
        · exact Or.inl h
        · exact Or.inr ⟨List.mem_cons_of_mem a h1, h2⟩
      · rw [if_neg hb] at hc
        rcases List.mem_cons.mp hc with rfl | hc
        · exact Or.inl rfl
        · rcases ih true c hc with h | ⟨h1, h2⟩
          · exact Or.inl h
          · exact Or.inr ⟨List.mem_cons_of_mem a h1, h2⟩
    · rw [squeeze, if_neg hs] at hc
      rcases List.mem_cons.mp hc with rfl | hc
      · exact Or.inr ⟨List.mem_cons_self _ _, by simpa using hs⟩
      · rcases ih false c hc with h | ⟨h1, h2⟩
        · exact Or.inl h
        · exact Or.inr ⟨List.mem_cons_of_mem a h1, h2⟩

theorem squeeze_true_head? (l : List Char) :
    ∀ c, (squeeze true l).head? = some c → isSpaceCh c = false := by
  induction l with
  | nil => intro c h; simp [squeeze] at h
  | cons a t ih =>
    intro c h
    by_cases hs : isSpaceCh a
    · rw [squeeze, if_pos hs, if_pos rfl] at h
      exact ih c h
    · rw [squeeze, if_neg hs] at h
      obtain rfl : a = c := by simpa using h
      simpa using hs

/-- Canonical whitespace shape: every whitespace character is a plain space
and no two adjacent characters are both whitespace. -/
def SqOk (l : List Char) : Prop :=
  (∀ c ∈ l, isSpaceCh c = true → c = ' ') ∧
    l.Chain' (fun a b => ¬(isSpaceCh a = true ∧ isSpaceCh b = true))

theorem squeeze_SqOk (l : List Char) : ∀ b, SqOk (squeeze b l) := by
  induction l with
  | nil => intro b; exact ⟨by simp [squeeze], by simp [squeeze]⟩
  | cons a t ih =>
    intro b
    constructor
    · intro c hc hsp
      rcases mem_squeeze b (a :: t) c hc with h | ⟨-, h2⟩
      · exact h
      · rw [hsp] at h2
        exact absurd h2 (by simp)
    · by_cases hs : isSpaceCh a
      · rw [squeeze, if_pos hs]
        by_cases hb : b
        · subst hb
          rw [if_pos rfl]
          exact (ih true).2
        · rw [if_neg hb]
          rw [List.chain'_cons']
          refine ⟨?_, (ih true).2⟩
          intro y hy
          have := squeeze_true_head? t y hy
          simp [this]
      · rw [squeeze, if_neg hs]
        rw [List.chain'_cons']
        refine ⟨?_, (ih false).2⟩
        intro y hy
        simp [hs]

theorem SqOk_trimList (l : List Char) (h : SqOk l) : SqOk (trimList l) := by
  obtain ⟨h1, h2⟩ := h
  constructor
  · intro c hc
    exact h1 c (mem_trimList l c hc)
  · unfold trimList
    have hsym : ∀ m : List Char,
        m.Chain' (fun a b => ¬(isSpaceCh a = true ∧ isSpaceCh b = true)) →
        m.reverse.Chain' (fun a b => ¬(isSpaceCh a = true ∧ isSpaceCh b = true)) := by
      intro m hm
      rw [List.chain'_reverse]
      exact hm.imp (fun a b hr hab => hr ⟨hab.2, hab.1⟩)
    apply hsym
    refine List.Chain'.suffix ?_ (List.dropWhile_suffix isSpaceCh)
    apply hsym
    exact List.Chain'.suffix h2 (List.dropWhile_suffix isSpaceCh)

/-- On canonically-spaced strings the whitespace collapse is the identity. -/
theorem squeeze_eq_self (l : List Char) (h : SqOk l) :
    squeeze false l = l ∧
      ((∀ c, l.head? = some c → isSpaceCh c = false) → squeeze true l = l) := by
  induction l with
  | nil => exact ⟨rfl, fun _ => rfl⟩
  | cons a t ih =>
    obtain ⟨h1, h2⟩ := h
    have hts : SqOk t := ⟨fun c hc => h1 c (List.mem_cons_of_mem a hc), h2.tail⟩
    by_cases hs : isSpaceCh a
    · have ha : a = ' ' := h1 a (List.mem_cons_self a t) hs
      have hhead : ∀ c, t.head? = some c → isSpaceCh c = false := by
        intro c hc
        rcases (List.chain'_cons'.mp h2).1 c hc with hr
        by_contra hcs
        exact hr ⟨hs, by simpa using hcs⟩
      constructor
      · rw [squeeze, if_pos hs, if_neg (by simp)]
        rw [(ih hts).2 hhead, ha]
      · intro hcond
        have := hcond a rfl
        rw [hs] at this
        exact absurd this (by simp)
    · constructor
      · rw [squeeze, if_neg hs, (ih hts).1]
      · intro _
        rw [squeeze, if_neg hs, (ih hts).1]

/-- C4 (amended, discovery side): the trailing-suffix strip of
`normalize_company_name` either leaves the string unchanged or removes
exactly one configured token occurring as a trailing whole word (optionally
followed by one dot), returning the prefix before it verbatim — so every
non-trailing occurrence of a configured token is retained. -/
theorem C4_trailing_only_discovery (s : List Char) :
    stripTrailingSuffix s = s ∨
      ∃ (p : List Char) (tok : String), tok ∈ suffixTokens ∧
        (s = p ++ tok.data ∨ s = p ++ tok.data ++ ['.']) ∧
        boundaryBefore p = true ∧ stripTrailingSuffix s = p :=
  stripTrailingSuffix_cases s

theorem map_eq_self_mem (f : Char → Char) (l : List Char)
    (h : ∀ c ∈ l, f c = c) : l.map f = l := by
  induction l with
  | nil => rfl
  | cons a t ih =>
    rw [List.map_cons, h a (List.mem_cons_self a t),
      ih (fun c hc => h c (List.mem_cons_of_mem a hc))]

/-- Every character of a normalized name is a lowercase-fixed word character
or a single space. -/
theorem normalize_chars (x : List Char) :
    ∀ c ∈ normalize_company_name x, lowerCh c = c ∧ (isWordCh c = true ∨ c = ' ') := by
  intro c hc
  simp only [normalize_company_name] at hc
  split at hc
  · simp at hc
  · have hc1 := mem_trimList _ c hc
    rcases mem_squeeze false _ c hc1 with rfl | ⟨hc2, hsp⟩
    · exact ⟨by decide, Or.inr rfl⟩
    · have hc3 := mem_trimList _ c hc2
      have hc4 := mem_stripTrailingSuffix _ c hc3
      rw [List.mem_map] at hc4
      obtain ⟨a, ha, hpa⟩ := hc4
      by_cases hw : isWordCh a || isSpaceCh a
      · rw [if_pos hw] at hpa
        subst hpa
        rw [List.mem_map] at ha
        obtain ⟨b, hb, rfl⟩ := ha
        refine ⟨lowerCh_idem b, ?_⟩
        rcases (Bool.or_eq_true _ _).mp hw with h' | h'
        · exact Or.inl h'
        · rw [h'] at hsp
          exact absurd hsp (by simp)
      · rw [if_neg hw] at hpa
        subst hpa
        exact absurd hsp (by decide)

theorem normalize_trim (x : List Char) :
    trimList (normalize_company_name x) = normalize_company_name x := by
  simp only [normalize_company_name]
  split
  · rfl
  · exact trimList_idem _

theorem normalize_SqOk (x : List Char) : SqOk (normalize_company_name x) := by
  simp only [normalize_company_name]
  split
  · exact ⟨by simp, by simp⟩
  · exact SqOk_trimList _ (squeeze_SqOk _ false)

/-- The normalizer fixes every string that is in canonical shape and not
terminated by a configured suffix token. -/
theorem normalize_fix (y : List Char)
    (hch : ∀ c ∈ y, lowerCh c = c ∧ (isWordCh c = true ∨ c = ' '))
    (htr : trimList y = y) (hsq : SqOk y)
    (hst : stripTrailingSuffix y = y) :
    normalize_company_name y = y := by
  by_cases hnil : y = []
  · rw [hnil]
    rfl
  · simp only [normalize_company_name, if_neg hnil]
    have e1 : (trimList y).map lowerCh = y := by
      rw [htr]
      exact map_eq_self_mem _ _ (fun c hc => (hch c hc).1)
    rw [e1]
    have e2 : y.map (fun c => if isWordCh c || isSpaceCh c then c else ' ') = y := by
      apply map_eq_self_mem
      intro c hc
      rcases (hch c hc).2 with h' | h'
      · rw [if_pos (by simp [h'])]
      · subst h'
        decide
    rw [e2, hst, htr, (squeeze_eq_self y hsq).1, htr]

theorem length_trimList_le (l : List Char) : (trimList l).length ≤ l.length := by
  unfold trimList
  have h1 := (List.dropWhile_suffix (l := l) isSpaceCh).length_le
  have h2 := (List.dropWhile_suffix (l := (l.dropWhile isSpaceCh).reverse) isSpaceCh).length_le
  simp only [List.length_reverse] at *
  omega

theorem length_squeeze_le (l : List Char) : ∀ b, (squeeze b l).length ≤ l.length := by
  induction l with
  | nil => intro b; simp [squeeze]
  | cons a t ih =>
    intro b
    by_cases hs : isSpaceCh a
    · rw [squeeze, if_pos hs]
      by_cases hb : b
      · subst hb
        rw [if_pos rfl]
        have := ih true
        simp only [List.length_cons]
        omega
      · rw [if_neg hb]
        have := ih true
        simp only [List.length_cons]
        omega
    · rw [squeeze, if_neg hs]
      have := ih false
      simp only [List.length_cons]
      omega

theorem suffixTokens_data_ne_nil : ∀ tok ∈ suffixTokens, tok.data ≠ [] := by decide

theorem strip_length_lt (s : List Char) (h : stripTrailingSuffix s ≠ s) :
    (stripTrailingSuffix s).length < s.length := by
  rcases stripTrailingSuffix_cases s with h' | ⟨p, tok, hmem, hshape, -, hres⟩
  · exact absurd h' h
  · rw [hres]
    have htok : 0 < tok.data.length :=
      List.length_pos.mpr (suffixTokens_data_ne_nil tok hmem)
    rcases hshape with rfl | rfl
    · simp only [List.length_append]
      omega
    · simp only [List.length_append, List.length_cons, List.length_nil]
      omega

/-- C2 (amended): the normalizer is idempotent exactly on those inputs whose
normalized form is itself fixed by the trailing-suffix strip (i.e. does not
end in a configured suffix token); on the others a second normalization
strips again and produces a strictly shorter string. -/
theorem C2_idempotence_iff (x : List Char) :
    normalize_company_name (normalize_company_name x) = normalize_company_name x ↔
      stripTrailingSuffix (normalize_company_name x) = normalize_company_name x := by
  set y := normalize_company_name x with hy
  have hch : ∀ c ∈ y, lowerCh c = c ∧ (isWordCh c = true ∨ c = ' ') := by
    rw [hy]
    exact normalize_chars x
  have htr : trimList y = y := by
    rw [hy]
    exact normalize_trim x
  constructor
  · intro hid
    by_contra hne
    have hynil : y ≠ [] := by
      intro h0
      rw [h0] at hne
      exact hne rfl
    have e1 : (trimList y).map lowerCh = y := by
      rw [htr]
      exact map_eq_self_mem _ _ (fun c hc => (hch c hc).1)
    have e2 : y.map (fun c => if isWordCh c || isSpaceCh c then c else ' ') = y := by
      apply map_eq_self_mem
      intro c hc
      rcases (hch c hc).2 with h' | h'
      · rw [if_pos (by simp [h'])]
      · subst h'
        decide
    have heq : normalize_company_name y =
        trimList (squeeze false (trimList (stripTrailingSuffix y))) := by
      simp only [normalize_company_name, if_neg hynil]
      rw [e1, e2]
    have hlen : (normalize_company_name y).length < y.length := by
      rw [heq]
      have l1 := length_trimList_le (squeeze false (trimList (stripTrailingSuffix y)))
      have l2 := length_squeeze_le (trimList (stripTrailingSuffix y)) false
      have l3 := length_trimList_le (stripTrailingSuffix y)
      have l4 := strip_length_lt y hne
      omega
    rw [hid] at hlen
    omega
  · intro hst
    exact normalize_fix y hch htr (by rw [hy]; exact normalize_SqOk x) hst

example : stripTrailingSuffix (normalize_company_name "service investment".data) ≠
    normalize_company_name "service investment".data := by decide

example : normalize_company_name (normalize_company_name "incline village".data) =
    normalize_company_name "incline village".data := by decide
